import Mathlib

/-!
Verification of the kata workflow-mode engine against its specification.

The data model and the core operations (mode definition store, template
parser, session state store, task factory, exit evaluator, hook dispatcher)
are embedded shallowly below.  The repository ships only the eval harness,
tests and the `batteries` scaffolding commands for the core engine, so the
core operations are modelled from the specification text; the scaffolding
commands (`scaffoldBatteries`, `batteries`) are translated directly from
`src/commands/scaffold-batteries.ts` and `src/commands/batteries.ts`.
-/

namespace KataWm

/-- Task status in the external task store: `open | in-progress | closed`.
(`opened` models the status string `open`, which is a Lean keyword.) -/
inductive TaskStatus where
  | opened
  | inProgress
  | closed
deriving DecidableEq, Repr

/-- A task owned by the external task store: `id`, `workflowId`, `title`,
`status`, `dependsOn : Task.id[]`. -/
structure Task where
  id : Nat
  workflowId : String
  title : String
  status : TaskStatus
  dependsOn : List Nat
deriving DecidableEq, Repr

/-- Per-phase task specification: a task `title` template and
`depends_on : [phase-id, ...]` edges to other phases of the same mode. -/
structure TaskConfig where
  title : String
  dependsOn : List String
deriving DecidableEq, Repr

/-- One step of a mode: `id` (unique within a mode), `name`, `taskConfig`. -/
structure Phase where
  id : String
  name : String
  taskConfig : TaskConfig
deriving DecidableEq, Repr

/-- A mode definition: stable `id`, display `name`, ordered `phases`. -/
structure ModeDefinition where
  id : String
  name : String
  phases : List Phase
deriving DecidableEq, Repr

/-- One `modeHistory` entry of a session record (append-only). -/
structure ModeHistoryEntry where
  mode : String
  enteredAt : Nat
  exitedAt : Option Nat
deriving DecidableEq, Repr

/-- The per-session persisted record: `sessionId`, `currentMode`,
`currentPhase`, `workflowId` (all nullable but `sessionId`), `modeHistory`. -/
structure SessionState where
  sessionId : String
  currentMode : Option String
  currentPhase : Option String
  workflowId : Option String
  modeHistory : List ModeHistoryEntry
deriving DecidableEq, Repr

/-- A blocking-task summary (id, title, status) as presented by the exit
evaluator. -/
structure TaskSummary where
  id : Nat
  title : String
  status : TaskStatus
deriving DecidableEq, Repr

/-- The exit evaluator's structured report. -/
structure ExitReport where
  allowed : Bool
  blocking : List TaskSummary
deriving DecidableEq, Repr

/-- The summary the exit evaluator presents for a task. -/
def summaryOf (t : Task) : TaskSummary :=
  { id := t.id, title := t.title, status := t.status }

/-- Modelled from the spec: the Exit Evaluator `canExit` (the engine source is
not in the repository; §4.5 of the spec).  Reads the session's `workflowId`;
queries the external task store (`store`, listed in creation order) for all
tasks tagged with that workflow id; `allowed` is true iff every such task's
status is `closed`; `blocking` lists the non-closed tasks (id, title, status)
in creation order.  Returns `none` when the session has no workflow id. -/
def canExit (state : SessionState) (store : List Task) : Option ExitReport :=
  match state.workflowId with
  | none => none
  | some wf =>
    let tasks := store.filter (fun t => t.workflowId == wf)
    some
      { allowed := tasks.all (fun t => t.status == TaskStatus.closed)
        blocking :=
          (tasks.filter (fun t => !(t.status == TaskStatus.closed))).map
            summaryOf }

/-- Modelled from the spec: the persistent layout backing one session record
(the Session State Store source is not in the repository; §4.3 of the spec):
the canonical record path and the temporary write path, each either absent or
holding a fully serialized record. -/
structure SessionFile where
  main : Option String
  tmp : Option String
deriving DecidableEq, Repr

/-- Modelled from the spec: a reader of the session record observes the
canonical path only. -/
def readMain (f : SessionFile) : Option String :=
  f.main

/-- Modelled from the spec: the two steps of the atomic `save` discipline:
write the new record to the temporary location, then atomically rename it
over the canonical path. -/
inductive SaveStep where
  | writeTmp
  | rename
deriving DecidableEq, Repr

/-- Modelled from the spec: the effect of one step of `save` on the layout. -/
def applyStep (record : String) (f : SessionFile) : SaveStep → SessionFile
  | SaveStep.writeTmp => { f with tmp := some record }
  | SaveStep.rename =>
    match f.tmp with
    | some c => { main := some c, tmp := none }
    | none => f

/-- Modelled from the spec: the step sequence of one `save` invocation. -/
def saveProtocol : List SaveStep :=
  [SaveStep.writeTmp, SaveStep.rename]

/-- Run a prefix of the save protocol from an initial layout. -/
def runSteps (record : String) (f : SessionFile) : List SaveStep → SessionFile
  | [] => f
  | s :: rest => runSteps record (applyStep record f s) rest

/-- All layouts a concurrent reader can observe while a `save` of `record`
is in flight: the layout after each prefix of the protocol. -/
def observableStates (record : String) (f : SessionFile) : List SessionFile :=
  (List.range (saveProtocol.length + 1)).map
    (fun k => runSteps record f (saveProtocol.take k))

/-- Errors of the Session State Store. -/
inductive StateError where
  | stateCorruption (sessionId : String)
deriving DecidableEq, Repr

/-- Modelled from the spec: the Session State Store `load` (the engine source
is not in the repository; §4.3 of the spec).  `fs` maps a session id to the
raw persisted record, if any; `parse` deserializes a raw record.  `load`
returns `none` (not an error) when no record exists; a record that exists but
fails to parse surfaces a `StateCorruptionError`. -/
def loadState (parse : String → Option SessionState) (fs : String → Option String)
    (sessionId : String) : Except StateError (Option SessionState) :=
  match fs sessionId with
  | none => Except.ok none
  | some raw =>
    match parse raw with
    | some st => Except.ok (some st)
    | none => Except.error (StateError.stateCorruption sessionId)

/-- Errors of the Mode Definition Store. -/
inductive ModeError where
  | notFound (name : String)
  | malformedOverride
deriving DecidableEq, Repr

/-- Modelled from the spec: the project-level replacement of one built-in
definition (the engine source is not in the repository; §4.1 of the spec):
the project definition with the same `id`, if any, else the built-in. -/
def overrideOf (project : List ModeDefinition) (b : ModeDefinition) :
    ModeDefinition :=
  match project.find? (fun p => p.id == b.id) with
  | some p => p
  | none => b

/-- Modelled from the spec: the merge of built-in and project-level mode
definitions (§4.1 of the spec): every built-in whose `id` also appears in
the project set is replaced wholesale by the project definition; definitions
unique to the project are added. -/
def mergeModes (builtins project : List ModeDefinition) : List ModeDefinition :=
  builtins.map (overrideOf project)
  ++ project.filter (fun p => !builtins.any (fun b => b.id == p.id))

/-- Modelled from the spec: `resolveMode(name)` over a merged definition set:
the first definition whose `id` matches, else `NotFoundError`. -/
def resolveMode (modes : List ModeDefinition) (name : String) :
    Except ModeError ModeDefinition :=
  match modes.find? (fun m => m.id == name) with
  | some m => Except.ok m
  | none => Except.error (ModeError.notFound name)

/-- Modelled from the spec: the Mode Definition Store loading order (§4.1):
parse the built-in seeds; if a project-level override file exists
(`overrideFile = some content`), parse it with `parseOverride` and merge; a
malformed override file is a hard failure for the whole resolution, never a
silent fallback to the built-ins alone. -/
def loadModes (builtins : List ModeDefinition) (overrideFile : Option String)
    (parseOverride : String → Option (List ModeDefinition)) :
    Except ModeError (List ModeDefinition) :=
  match overrideFile with
  | none => Except.ok builtins
  | some content =>
    match parseOverride content with
    | none => Except.error ModeError.malformedOverride
    | some defs => Except.ok (mergeModes builtins defs)

/-- An inbound hook event payload: minimally an event kind and a session id. -/
structure HookPayload where
  eventKind : String
  sessionId : String
deriving DecidableEq, Repr

/-- The outbound hook decision: `allow | block`, optional message, optional
injected context text. -/
structure HookDecision where
  allow : Bool
  message : Option String
  context : Option String
deriving DecidableEq, Repr

/-- The event kinds the Hook Dispatcher recognizes (session start, prompt
submit, stop). -/
def knownHookKinds : List String :=
  ["session-start", "user-prompt", "stop-conditions"]

/-- Modelled from the spec: the Hook Dispatcher (the engine source is not in
the repository; §4.6 of the spec).  Dispatches on the event kind of the
payload: session start injects context, prompt submit passes through, stop
blocks only when the exit evaluator reports blocking tasks; an unknown event
kind is a no-op pass-through that never blocks. -/
def dispatchHook (payload : HookPayload) (state : Option SessionState)
    (store : List Task) : HookDecision :=
  if payload.eventKind = "session-start" then
    { allow := true, message := none, context := some "available modes" }
  else if payload.eventKind = "user-prompt" then
    { allow := true, message := none, context := none }
  else if payload.eventKind = "stop-conditions" then
    match state with
    | none => { allow := true, message := none, context := none }
    | some st =>
      match canExit st store with
      | none => { allow := true, message := none, context := none }
      | some report =>
        if report.allowed then
          { allow := true, message := none, context := none }
        else
          { allow := false, message := some "phase tasks incomplete",
            context := none }
  else
    { allow := true, message := none, context := none }

/-- The dependency edges of a phase (`taskConfig.dependsOn`). -/
def phaseDeps (p : Phase) : List String :=
  p.taskConfig.dependsOn

/-- The first phase declared with a given id. -/
def lookupPhase (phases : List Phase) (x : String) : Option Phase :=
  phases.find? (fun p => p.id == x)

/-- The dependency edge relation induced by a phase list: `a` depends on `b`. -/
def depEdgeB (phases : List Phase) (a b : String) : Bool :=
  match lookupPhase phases a with
  | some p => (phaseDeps p).contains b
  | none => false

/-- Consecutive elements of the list are dependency edges. -/
def chainB (phases : List Phase) : List String → Bool
  | [] => true
  | [_] => true
  | a :: b :: rest => depEdgeB phases a b && chainB phases (b :: rest)

/-- The last element of a list, with a default for the empty list. -/
def lastD : List String → String → String
  | [], d => d
  | x :: rest, _ => lastD rest x

/-- The list is a (nonempty) cycle of the dependency graph: consecutive
elements are edges and the last element has an edge back to the first. -/
def isCycleB (phases : List Phase) : List String → Bool
  | [] => false
  | x :: rest => chainB phases (x :: rest) && depEdgeB phases (lastD rest x) x

/-- Modelled from the spec: the declaration-order tie-break of the Task
Factory's topological ordering (the engine source is not in the repository;
§4.4 of the spec): the first phase in declaration order that is not yet
emitted and whose dependencies are all emitted. -/
def readyPhase (phases : List Phase) (emitted : List String) : Option Phase :=
  phases.find?
    (fun p => !emitted.contains p.id
      && (phaseDeps p).all (fun d => emitted.contains d))

/-- The terminal step of the topological ordering: succeed with the emitted
order when every declared phase id has been emitted, otherwise report the
emitted id set as stuck. -/
def topoFinish (phases acc : List Phase) : Except (List String) (List Phase) :=
  match phases.all (fun p => (acc.map (fun q => q.id)).contains p.id) with
  | true => Except.ok acc
  | false => Except.error (acc.map (fun q => q.id))

/-- Modelled from the spec: fueled topological ordering of the phases, ties
broken by declaration order.  On success returns the emission order; when no
phase is ready and phases remain, returns the emitted id set as the error. -/
def topoGo (phases : List Phase) : Nat → List Phase → Except (List String) (List Phase)
  | 0, acc => topoFinish phases acc
  | fuel + 1, acc =>
    match readyPhase phases (acc.map (fun q => q.id)) with
    | some p => topoGo phases fuel (acc ++ [p])
    | none => topoFinish phases acc

/-- The topological order of a phase list, or the stuck emitted set. -/
def topoOrder (phases : List Phase) : Except (List String) (List Phase) :=
  topoGo phases (phases.length + 1) []

/-- The first dependency of the phase named `x` that is not yet emitted. -/
def firstBlocked (phases : List Phase) (emitted : List String) (x : String) :
    Option String :=
  match lookupPhase phases x with
  | none => none
  | some p => (phaseDeps p).find? (fun d => !emitted.contains d)

/-- The suffix of the list starting at the first occurrence of `x`. -/
def dropUntil (x : String) : List String → List String
  | [] => []
  | y :: rest => if y == x then y :: rest else dropUntil x rest

/-- Modelled from the spec: cycle extraction (§9 of the spec: iterative
traversal tracking visited nodes to detect a back-edge).  From a blocked
phase, repeatedly follow the first still-blocked dependency, recording the
path; when a node repeats, the recorded path from its first visit onward is
the reported cycle. -/
def walkCycle (phases : List Phase) (emitted : List String) :
    Nat → String → List String → Option (List String)
  | 0, _, _ => none
  | fuel + 1, x, seen =>
    match seen.contains x with
    | true => some (dropUntil x seen)
    | false =>
      match firstBlocked phases emitted x with
      | none => none
      | some d => walkCycle phases emitted fuel d (seen ++ [x])

/-- Modelled from the spec: find the cycle blocking a stuck topological
ordering, starting from any phase not yet emitted. -/
def findCycle (phases : List Phase) (emitted : List String) :
    Option (List String) :=
  match phases.find? (fun p => !emitted.contains p.id) with
  | none => none
  | some p => walkCycle phases emitted (phases.length + 1) p.id []

/-- Errors of the Template Parser's header validation. -/
inductive ParseError where
  | duplicatePhaseId (id : String)
  | selfDependency (id : String)
  | unknownDependency (phase : String) (dep : String)
  | cyclicDependency (path : List String)
deriving DecidableEq, Repr

/-- The first element of the list that recurs later in it. -/
def findDuplicate : List String → Option String
  | [] => none
  | x :: rest =>
    match rest.contains x with
    | true => some x
    | false => findDuplicate rest

/-- The parser's cycle report for a stuck emitted set: the extracted cycle
path as a `cyclicDependency` error. -/
def cycleReport (phases : List Phase) (emitted : List String) :
    Except ParseError (List Phase) :=
  match findCycle phases emitted with
  | some c => Except.error (ParseError.cyclicDependency c)
  | none => Except.error (ParseError.cyclicDependency [])

/-- The parser's acyclicity stage: order the phases topologically, and turn a
stuck ordering into a cycle error. -/
def cycleStage (phases : List Phase) : Except ParseError (List Phase) :=
  match topoOrder phases with
  | Except.ok ord => Except.ok ord
  | Except.error emitted => cycleReport phases emitted

/-- Modelled from the spec: the Template Parser's validation of a parsed
phase list (the engine source is not in the repository; §4.2 of the spec):
every phase id is unique; self-reference is forbidden; every `dependsOn`
entry references a declared phase id; the induced graph is acyclic, a cycle
being rejected with the specific cycle path in the error.  On success returns
the phases in a topological order. -/
def parsePhases (phases : List Phase) : Except ParseError (List Phase) :=
  match findDuplicate (phases.map (fun p => p.id)) with
  | some d => Except.error (ParseError.duplicatePhaseId d)
  | none =>
    match phases.find? (fun p => (phaseDeps p).contains p.id) with
    | some p => Except.error (ParseError.selfDependency p.id)
    | none =>
      match phases.find?
          (fun p => !(phaseDeps p).all
            (fun d => phases.any (fun q => q.id == d))) with
      | some p =>
        Except.error (ParseError.unknownDependency p.id
          (((phaseDeps p).find?
            (fun d => !phases.any (fun q => q.id == d))).getD ""))
      | none => cycleStage phases

/-- Each phase's dependencies all occur among the ids listed before it
(`seen` accumulates the ids already listed). -/
def depsBeforeB : List Phase → List String → Bool
  | [], _ => true
  | p :: rest, seen =>
    (phaseDeps p).all (fun d => seen.contains d)
      && depsBeforeB rest (seen ++ [p.id])

/-- The result of materializing a mode: the workflow id, the task-creation
requests issued (in creation order), and the phase-id-to-task-id map. -/
structure MaterializeResult where
  workflowId : String
  tasks : List Task
  phaseTaskIds : List (String × Nat)
deriving DecidableEq, Repr

/-- One task-creation step of the Task Factory: create the task for phase
`p` with `dependsOn` translated from phase ids to the already-created task
ids of its dependencies. -/
def materializeStep (workflowId : String)
    (st : List Task × List (String × Nat) × Nat) (p : Phase) :
    List Task × List (String × Nat) × Nat :=
  let deps := (phaseDeps p).filterMap
    (fun d => (st.2.1.find? (fun e => e.1 == d)).map (fun e => e.2))
  (st.1 ++ [{ id := st.2.2, workflowId := workflowId,
              title := p.taskConfig.title, status := TaskStatus.opened,
              dependsOn := deps }],
   st.2.1 ++ [(p.id, st.2.2)], st.2.2 + 1)

/-- Modelled from the spec: the Task Factory `materialize` (the engine source
is not in the repository; §4.4 of the spec): topologically order the phases
(ties broken by declaration order); for each phase in that order issue a
task-creation request against the external store (which assigns consecutive
task ids from `firstTaskId`), translating `dependsOn` from phase ids to the
just-created task ids of the dependencies.  Fails when the phase graph has no
topological order. -/
def materialize (mode : ModeDefinition) (workflowId : String)
    (firstTaskId : Nat) : Option MaterializeResult :=
  match topoOrder mode.phases with
  | Except.error _ => none
  | Except.ok ord =>
    let st := ord.foldl (materializeStep workflowId) ([], [], firstTaskId)
    some { workflowId := workflowId, tasks := st.1, phaseTaskIds := st.2.1 }

/-- A filesystem snapshot: the regular files, each a path (list of segments)
with its byte content.  Paths of distinct files are distinct. -/
abbrev Fs : Type :=
  List (List String × String)

/-- The content of the file at a path, if present (`readFileSync`). -/
def fileContent (fs : Fs) (p : List String) : Option String :=
  (fs.find? (fun e => e.1 == p)).map (fun e => e.2)

/-- Whether a file exists at a path (`existsSync`). -/
def fileExistsB (fs : Fs) (p : List String) : Bool :=
  fs.any (fun e => e.1 == p)

/-- If `p` is an immediate child of `dir`, its basename. -/
def childName (dir p : List String) : Option String :=
  if p.dropLast = dir then p.getLast? else none

/-- The basenames of the files directly inside `dir` (`readdirSync`). -/
def childNames (fs : Fs) (dir : List String) : List String :=
  fs.filterMap (fun e => childName dir e.1)

/-- The loop body of `copyDirectory` in
`src/commands/scaffold-batteries.ts`: for each listed basename, if the
destination file exists push it to `skipped`, otherwise copy the source file
and push it to `copied`. -/
def copyFiles (srcDir destDir : List String) :
    List String → Fs → List String → List String →
    Fs × List String × List String
  | [], fs, copied, skipped => (fs, copied, skipped)
  | n :: rest, fs, copied, skipped =>
    match fileExistsB fs (destDir ++ [n]) with
    | true => copyFiles srcDir destDir rest fs copied (skipped ++ [n])
    | false =>
      match fileContent fs (srcDir ++ [n]) with
      | some c =>
        copyFiles srcDir destDir rest (fs ++ [(destDir ++ [n], c)])
          (copied ++ [n]) skipped
      | none => copyFiles srcDir destDir rest fs copied skipped

/-- `copyDirectory` of `src/commands/scaffold-batteries.ts`: copy all files
from `srcDir` into `destDir`, skipping files that already exist in `destDir`
(never overwriting); returns the filesystem and the copied and skipped
basenames. -/
def copyDirectory (srcDir destDir : List String) (fs : Fs) :
    Fs × List String × List String :=
  copyFiles srcDir destDir (childNames fs srcDir) fs [] []

/-- `BatteriesResult` of `src/commands/scaffold-batteries.ts`: the fields the
function produces are exactly `templates`, `agents`, `specTemplates` and
`skipped`. -/
structure BatteriesResult where
  templates : List String
  agents : List String
  specTemplates : List String
  skipped : List String
deriving DecidableEq, Repr

/-- `scaffoldBatteries` of `src/commands/scaffold-batteries.ts`: copy the
package's `batteries/templates`, `batteries/agents` and
`batteries/spec-templates` directories into
`.claude/workflows/templates`, `.claude/agents` and
`planning/spec-templates` under the project root, never overwriting existing
files.  The function takes no update flag. -/
def scaffoldBatteries (pkgRoot projectRoot : List String) (fs : Fs) :
    Fs × BatteriesResult :=
  let r1 := copyDirectory (pkgRoot ++ ["batteries", "templates"])
    (projectRoot ++ [".claude", "workflows", "templates"]) fs
  let r2 := copyDirectory (pkgRoot ++ ["batteries", "agents"])
    (projectRoot ++ [".claude", "agents"]) r1.1
  let r3 := copyDirectory (pkgRoot ++ ["batteries", "spec-templates"])
    (projectRoot ++ ["planning", "spec-templates"]) r2.1
  (r3.1,
   { templates := r1.2.1, agents := r2.2.1, specTemplates := r3.2.1,
     skipped := r1.2.2 ++ r2.2.2 ++ r3.2.2 })

/-- The filesystem effect of the `batteries` command
(`src/commands/batteries.ts`): it parses the `--update` flag but invokes
`scaffoldBatteries(projectRoot, update)` whose declaration accepts only
`projectRoot`, so the extra argument is dropped and the effect on disk does
not depend on the flag. -/
def batteriesCommand (update : Bool) (pkgRoot projectRoot : List String)
    (fs : Fs) : Fs × BatteriesResult :=
  scaffoldBatteries pkgRoot projectRoot fs

/-- A sample project filesystem: two package mode templates (one of which
already exists in the project), one package agent, and an unrelated project
file. -/
def sampleBatteriesFs : Fs :=
  [(["pkg", "batteries", "templates", "task.md"], "task template"),
   (["pkg", "batteries", "templates", "plan.md"], "plan template"),
   (["proj", ".claude", "workflows", "templates", "plan.md"], "local plan"),
   (["pkg", "batteries", "agents", "reviewer.md"], "reviewer agent"),
   (["proj", "README.md"], "readme")]

/-- C1: for a session with an assigned workflow id, `canExit` allows exit iff
every task tagged with that workflow id is closed; when some tagged task is
not closed — in particular immediately after mode entry, when all tasks are
freshly created and open — it does not allow exit; and the blocking list is
exactly the non-closed tagged tasks (id, title, status) in creation order
(the order of the store listing). -/
theorem canExit_spec (state : SessionState) (store : List Task) (wf : String)
    (report : ExitReport) (hwf : state.workflowId = some wf)
    (hrun : canExit state store = some report) :
    (report.allowed = true ↔
      ∀ t ∈ store, t.workflowId = wf → t.status = TaskStatus.closed)
    ∧ ((∃ t ∈ store, t.workflowId = wf ∧ t.status ≠ TaskStatus.closed) →
        report.allowed = false)
    ∧ report.blocking =
        (store.filter (fun t => t.workflowId == wf
          && !(t.status == TaskStatus.closed))).map summaryOf := by
  have hrep : report =
      { allowed := (store.filter (fun t => t.workflowId == wf)).all
          (fun t => t.status == TaskStatus.closed)
        blocking := ((store.filter (fun t => t.workflowId == wf)).filter
          (fun t => !(t.status == TaskStatus.closed))).map summaryOf } := by
    have := hrun
    simp only [canExit, hwf] at this
    exact Option.some.inj this.symm
  subst hrep
  refine ⟨?_, ?_, ?_⟩
  · show List.all _ _ = true ↔ _
    rw [List.all_eq_true]
    constructor
    · intro h t ht htw
      simpa using h t (by simp [List.mem_filter, ht, htw])
    · intro h t ht
      rw [List.mem_filter] at ht
      have htw : t.workflowId = wf := by simpa using ht.2
      simpa using h t ht.1 htw
  · rintro ⟨t, ht, htw, hts⟩
    by_contra hfalse
    have hall : (store.filter (fun t => t.workflowId == wf)).all
        (fun t => t.status == TaskStatus.closed) = true := by
      revert hfalse
      cases (store.filter (fun t => t.workflowId == wf)).all
        (fun t => t.status == TaskStatus.closed) <;> simp
    rw [List.all_eq_true] at hall
    exact hts (by simpa using hall t (by simp [List.mem_filter, ht, htw]))
  · show (List.filter _ (List.filter _ store)).map summaryOf = _
    rw [List.filter_filter]
    refine congrArg (List.map summaryOf) (List.filter_congr ?_)
    intro t _
    exact Bool.and_comm _ _

/-- Witness for `canExit_spec`: a session in mode `task` with workflow id
`TASK-0101-0001` and a store holding one open and one closed task tagged with
it; exit is blocked and the open task is listed. -/
theorem canExit_spec_witness :
    ((ExitReport.mk false [⟨2, "P1: Implement", TaskStatus.opened⟩]).allowed
        = true ↔
      ∀ t ∈ [Task.mk 1 "TASK-0101-0001" "P0: Plan" TaskStatus.closed [],
             Task.mk 2 "TASK-0101-0001" "P1: Implement" TaskStatus.opened [1]],
        t.workflowId = "TASK-0101-0001" → t.status = TaskStatus.closed)
    ∧ ((∃ t ∈ [Task.mk 1 "TASK-0101-0001" "P0: Plan" TaskStatus.closed [],
             Task.mk 2 "TASK-0101-0001" "P1: Implement" TaskStatus.opened [1]],
          t.workflowId = "TASK-0101-0001" ∧ t.status ≠ TaskStatus.closed) →
        (ExitReport.mk false
          [⟨2, "P1: Implement", TaskStatus.opened⟩]).allowed = false)
    ∧ (ExitReport.mk false [⟨2, "P1: Implement", TaskStatus.opened⟩]).blocking
        = ([Task.mk 1 "TASK-0101-0001" "P0: Plan" TaskStatus.closed [],
            Task.mk 2 "TASK-0101-0001" "P1: Implement" TaskStatus.opened
              [1]].filter
            (fun t => t.workflowId == "TASK-0101-0001"
              && !(t.status == TaskStatus.closed))).map summaryOf :=
  canExit_spec
    ⟨"sess-1", some "task", some "p1", some "TASK-0101-0001", []⟩
    [Task.mk 1 "TASK-0101-0001" "P0: Plan" TaskStatus.closed [],
     Task.mk 2 "TASK-0101-0001" "P1: Implement" TaskStatus.opened [1]]
    "TASK-0101-0001"
    (ExitReport.mk false [⟨2, "P1: Implement", TaskStatus.opened⟩])
    rfl (by decide)

/-- C2: for every session record mutation, `save` is atomic: a concurrent
reader observes either the prior canonical record or the fully written new
record, never a partially written one; a save that fails after writing the
temporary file but before the rename leaves `load` returning the prior
state; a completed save leaves the new record. -/
theorem save_atomic_spec (record : String) (f s : SessionFile)
    (hs : s ∈ observableStates record f) :
    (readMain s = readMain f ∨ readMain s = some record)
    ∧ readMain (runSteps record f [SaveStep.writeTmp]) = readMain f
    ∧ readMain (runSteps record f saveProtocol) = some record := by
  refine ⟨?_, rfl, rfl⟩
  have hs' : s = f ∨ s = { f with tmp := some record }
      ∨ s = ⟨some record, none⟩ := by
    simpa [observableStates, saveProtocol, List.range_succ, runSteps,
      applyStep] using hs
  rcases hs' with h | h | h <;> subst h
  · exact Or.inl rfl
  · exact Or.inl rfl
  · exact Or.inr rfl

/-- Witness for `save_atomic_spec`: the mid-write layout (temporary file
written, rename not yet performed) observed during a save of `"new"` over a
prior record `"old"`. -/
theorem save_atomic_spec_witness :
    (readMain ⟨some "old", some "new"⟩ = readMain ⟨some "old", none⟩
      ∨ readMain ⟨some "old", some "new"⟩ = some "new")
    ∧ readMain (runSteps "new" ⟨some "old", none⟩ [SaveStep.writeTmp])
        = readMain ⟨some "old", none⟩
    ∧ readMain (runSteps "new" ⟨some "old", none⟩ saveProtocol) = some "new" :=
  save_atomic_spec "new" ⟨some "old", none⟩ ⟨some "old", some "new"⟩
    (by simp [observableStates, saveProtocol, List.range_succ, runSteps,
      applyStep])

/-- Under the wholesale replacement of built-ins, searching the replaced
built-in list for an id that a project definition carries yields that project
definition. -/
theorem find_map_overrideOf (project : List ModeDefinition) (name : String)
    (p : ModeDefinition)
    (hp : project.find? (fun q => q.id == name) = some p) :
    ∀ builtins : List ModeDefinition, (∃ b ∈ builtins, b.id = name) →
      (builtins.map (overrideOf project)).find? (fun m => m.id == name)
        = some p := by
  have hpid : (p.id == name) = true := by
    have h := List.find?_some hp
    simpa using h
  intro builtins
  induction builtins with
  | nil =>
    rintro ⟨b, hb, _⟩
    exact absurd hb (List.not_mem_nil b)
  | cons b bs ih =>
    rintro ⟨b', hb', hid⟩
    rw [List.map_cons, List.find?_cons]
    by_cases hbn : b.id = name
    · have hob : overrideOf project b = p := by
        unfold overrideOf
        rw [hbn, hp]
      simp [hob, hpid]
    · have hob : ((overrideOf project b).id == name) = false := by
        unfold overrideOf
        cases hfind : project.find? (fun q => q.id == b.id) with
        | none => simpa using hbn
        | some pb =>
          have hpb : pb.id = b.id := by
            simpa using (List.find?_some hfind)
          simp [hpb, hbn]
      rw [hob]
      have hb'bs : b' ∈ bs := by
        rcases List.mem_cons.mp hb' with h | h
        · subst h
          exact absurd hid hbn
        · exact h
      exact ih ⟨b', hb'bs, hid⟩

/-- C5: when a mode id is present both among the built-ins and in the
project-level set, resolving it over the merged set returns the project
definition wholesale (no field of the built-in survives); definitions unique
to the project are added to the merged set. -/
theorem resolveMode_override_spec (builtins project : List ModeDefinition)
    (name : String) (p : ModeDefinition)
    (hb : ∃ b ∈ builtins, b.id = name)
    (hp : project.find? (fun q => q.id == name) = some p) :
    resolveMode (mergeModes builtins project) name = Except.ok p
    ∧ ∀ q ∈ project, (∀ b ∈ builtins, b.id ≠ q.id) →
        q ∈ mergeModes builtins project := by
  constructor
  · unfold resolveMode mergeModes
    rw [List.find?_append, find_map_overrideOf project name p hp builtins hb]
    rfl
  · intro q hq hnone
    unfold mergeModes
    refine List.mem_append.mpr (Or.inr ?_)
    rw [List.mem_filter]
    refine ⟨hq, ?_⟩
    simp only [Bool.not_eq_true']
    rw [List.any_eq_false]
    intro b hbmem
    simpa using hnone b hbmem

/-- Witness for `resolveMode_override_spec`: a built-in `planning` mode and a
project definition with the same id; resolution returns the project version
in full, and the project-only `review` mode is present in the merged set. -/
theorem resolveMode_override_spec_witness :
    resolveMode
        (mergeModes
          [⟨"planning", "Built-in planning", []⟩, ⟨"task", "Task", []⟩]
          [⟨"planning", "Project planning",
             [⟨"p0", "Research", ⟨"P0: Research", []⟩⟩]⟩,
           ⟨"review", "Review", []⟩])
        "planning"
      = Except.ok
          ⟨"planning", "Project planning",
            [⟨"p0", "Research", ⟨"P0: Research", []⟩⟩]⟩
    ∧ ∀ q ∈ [⟨"planning", "Project planning",
               [⟨"p0", "Research", ⟨"P0: Research", []⟩⟩]⟩,
             (⟨"review", "Review", []⟩ : ModeDefinition)],
        (∀ b ∈ [⟨"planning", "Built-in planning", []⟩,
                (⟨"task", "Task", []⟩ : ModeDefinition)], b.id ≠ q.id) →
          q ∈ mergeModes
            [⟨"planning", "Built-in planning", []⟩, ⟨"task", "Task", []⟩]
            [⟨"planning", "Project planning",
               [⟨"p0", "Research", ⟨"P0: Research", []⟩⟩]⟩,
             ⟨"review", "Review", []⟩] :=
  resolveMode_override_spec
    [⟨"planning", "Built-in planning", []⟩, ⟨"task", "Task", []⟩]
    [⟨"planning", "Project planning",
       [⟨"p0", "Research", ⟨"P0: Research", []⟩⟩]⟩,
     ⟨"review", "Review", []⟩]
    "planning"
    ⟨"planning", "Project planning", [⟨"p0", "Research", ⟨"P0: Research", []⟩⟩]⟩
    ⟨⟨"planning", "Built-in planning", []⟩, by simp, rfl⟩
    (by decide)

/-- C6: a hook event payload whose event kind is not one of the recognized
kinds produces an allow/pass-through decision, never a block. -/
theorem dispatchHook_unknown_spec (payload : HookPayload)
    (state : Option SessionState) (store : List Task)
    (h : payload.eventKind ∉ knownHookKinds) :
    (dispatchHook payload state store).allow = true := by
  simp only [knownHookKinds, List.mem_cons, List.not_mem_nil, or_false,
    not_or] at h
  obtain ⟨h1, h2, h3⟩ := h
  unfold dispatchHook
  rw [if_neg h1, if_neg h2, if_neg h3]

/-- Witness for `dispatchHook_unknown_spec`: the unrecognized event kind
`"pre-compact"` is allowed through. -/
theorem dispatchHook_unknown_spec_witness :
    (dispatchHook ⟨"pre-compact", "sess-1"⟩ none []).allow = true :=
  dispatchHook_unknown_spec ⟨"pre-compact", "sess-1"⟩ none [] (by decide)

/-- C7: `load` returns `null` (not an error) when no record is persisted for
the session id; a persisted record that fails to parse is surfaced as a
`StateCorruptionError` and never treated as an absent record. -/
theorem loadState_spec (parse : String → Option SessionState)
    (fs : String → Option String) (sid : String) :
    (fs sid = none → loadState parse fs sid = Except.ok none)
    ∧ (∀ raw, fs sid = some raw → parse raw = none →
        loadState parse fs sid
            = Except.error (StateError.stateCorruption sid)
          ∧ loadState parse fs sid ≠ Except.ok none) := by
  refine ⟨fun h => by simp [loadState, h], fun raw h hp => ?_⟩
  refine ⟨by simp [loadState, h, hp], by simp [loadState, h, hp]⟩

/-- Witness for `loadState_spec`: a store with no record for `"sess-1"` loads
as `none`, and a store holding an unparseable record for `"sess-2"` surfaces
corruption. -/
theorem loadState_spec_witness :
    loadState (fun _ => none) (fun _ => none) "sess-1" = Except.ok none
    ∧ loadState (fun _ => none) (fun _ => some "garbage") "sess-2"
        = Except.error (StateError.stateCorruption "sess-2") :=
  ⟨(loadState_spec (fun _ => none) (fun _ => none) "sess-1").1 rfl,
   ((loadState_spec (fun _ => none) (fun _ => some "garbage") "sess-2").2
     "garbage" rfl rfl).1⟩

/-- C8: when the project-level override file exists but is malformed, the
whole mode resolution fails with a hard error and never silently yields a
definition set (in particular not the built-ins alone). -/
theorem loadModes_malformed_spec (builtins : List ModeDefinition)
    (content : String) (parseOverride : String → Option (List ModeDefinition))
    (h : parseOverride content = none) :
    loadModes builtins (some content) parseOverride
        = Except.error ModeError.malformedOverride
    ∧ ∀ modes, loadModes builtins (some content) parseOverride
        ≠ Except.ok modes := by
  exact ⟨by simp [loadModes, h], fun modes => by simp [loadModes, h]⟩

/-- Witness for `loadModes_malformed_spec`: a malformed override file fails
the resolution outright. -/
theorem loadModes_malformed_spec_witness :
    loadModes [⟨"planning", "Planning", []⟩] (some "not: [valid")
        (fun _ => none)
      = Except.error ModeError.malformedOverride
    ∧ ∀ modes, loadModes [⟨"planning", "Planning", []⟩] (some "not: [valid")
        (fun _ => none) ≠ Except.ok modes :=
  loadModes_malformed_spec [⟨"planning", "Planning", []⟩] "not: [valid"
    (fun _ => none) rfl

/-- Appending a phase whose dependencies are all already listed preserves the
deps-listed-before property. -/
theorem depsBeforeB_append (p : Phase) :
    ∀ (l : List Phase) (seen : List String),
      depsBeforeB l seen = true →
      (phaseDeps p).all
          (fun d => (seen ++ l.map (fun q => q.id)).contains d) = true →
      depsBeforeB (l ++ [p]) seen = true := by
  intro l
  induction l with
  | nil =>
    intro seen _ hall
    simp only [List.map_nil, List.append_nil] at hall
    simp only [List.nil_append, depsBeforeB, Bool.and_eq_true]
    exact ⟨hall, trivial⟩
  | cons q rest ih =>
    intro seen hl hall
    simp only [depsBeforeB, Bool.and_eq_true] at hl
    have hgoal : depsBeforeB (rest ++ [p]) (seen ++ [q.id]) = true := by
      apply ih (seen ++ [q.id]) hl.2
      have harr : seen ++ [q.id] ++ rest.map (fun r => r.id)
          = seen ++ (q :: rest).map (fun r => r.id) := by
        simp [List.append_assoc]
      rw [harr]
      exact hall
    simp only [List.cons_append, depsBeforeB, Bool.and_eq_true]
    exact ⟨hl.1, hgoal⟩

/-- Inversion for the terminal step: success returns the accumulator, and
every declared phase id is emitted. -/
theorem topoFinish_ok (phases acc ord : List Phase)
    (hok : topoFinish phases acc = Except.ok ord) :
    ord = acc
    ∧ phases.all
        (fun p => ((acc.map (fun q => q.id)).contains p.id)) = true := by
  unfold topoFinish at hok
  cases hall : phases.all (fun p => ((acc.map (fun q => q.id)).contains p.id))
    with
  | true =>
    rw [hall] at hok
    exact ⟨(Except.ok.inj hok).symm, rfl⟩
  | false =>
    rw [hall] at hok
    exact absurd hok (by simp)

/-- A ready phase is a declared phase, is not yet emitted, and has all of its
dependencies emitted. -/
theorem readyPhase_some (phases : List Phase) (emitted : List String)
    (p : Phase) (hready : readyPhase phases emitted = some p) :
    p ∈ phases ∧ p.id ∉ emitted ∧ ∀ d ∈ phaseDeps p, d ∈ emitted := by
  simp only [readyPhase] at hready
  have hmem := List.mem_of_find?_eq_some hready
  have hpred := List.find?_some hready
  simp only [Bool.and_eq_true] at hpred
  refine ⟨hmem, ?_, ?_⟩
  · simpa using hpred.1
  · simpa using hpred.2

/-- A successful topological ordering lists each phase only after all of its
dependencies. -/
theorem topoGo_ok_depsBefore (phases : List Phase) :
    ∀ (fuel : Nat) (acc ord : List Phase),
      depsBeforeB acc [] = true →
      topoGo phases fuel acc = Except.ok ord →
      depsBeforeB ord [] = true := by
  intro fuel
  induction fuel with
  | zero =>
    intro acc ord hacc hok
    obtain ⟨rfl, -⟩ := topoFinish_ok phases acc ord hok
    exact hacc
  | succ fuel ih =>
    intro acc ord hacc hok
    simp only [topoGo] at hok
    cases hready : readyPhase phases (acc.map (fun q => q.id)) with
    | some p =>
      rw [hready] at hok
      refine ih (acc ++ [p]) ord ?_ hok
      refine depsBeforeB_append p acc [] hacc ?_
      have hdeps := (readyPhase_some phases _ p hready).2.2
      simp only [List.nil_append, List.all_eq_true]
      intro d hd
      simpa using hdeps d hd
    | none =>
      rw [hready] at hok
      obtain ⟨rfl, -⟩ := topoFinish_ok phases acc ord hok
      exact hacc

/-- A successful topological ordering mentions every declared phase id. -/
theorem topoGo_ok_complete (phases : List Phase) :
    ∀ (fuel : Nat) (acc ord : List Phase),
      topoGo phases fuel acc = Except.ok ord →
      ∀ p ∈ phases, p.id ∈ ord.map (fun q => q.id) := by
  intro fuel
  induction fuel with
  | zero =>
    intro acc ord hok p hp
    obtain ⟨rfl, hall⟩ := topoFinish_ok phases acc ord hok
    rw [List.all_eq_true] at hall
    simpa using hall p hp
  | succ fuel ih =>
    intro acc ord hok p hp
    simp only [topoGo] at hok
    cases hready : readyPhase phases (acc.map (fun q => q.id)) with
    | some q =>
      rw [hready] at hok
      exact ih (acc ++ [q]) ord hok p hp
    | none =>
      rw [hready] at hok
      obtain ⟨rfl, hall⟩ := topoFinish_ok phases acc ord hok
      rw [List.all_eq_true] at hall
      simpa using hall p hp

/-- A successful topological ordering draws its phases from the declared
list. -/
theorem topoGo_ok_mem (phases : List Phase) :
    ∀ (fuel : Nat) (acc ord : List Phase),
      (∀ q ∈ acc, q ∈ phases) →
      topoGo phases fuel acc = Except.ok ord →
      ∀ q ∈ ord, q ∈ phases := by
  intro fuel
  induction fuel with
  | zero =>
    intro acc ord hacc hok
    obtain ⟨rfl, -⟩ := topoFinish_ok phases acc ord hok
    exact hacc
  | succ fuel ih =>
    intro acc ord hacc hok
    simp only [topoGo] at hok
    cases hready : readyPhase phases (acc.map (fun q => q.id)) with
    | some p =>
      rw [hready] at hok
      refine ih (acc ++ [p]) ord ?_ hok
      intro q hq
      rcases List.mem_append.mp hq with h | h
      · exact hacc q h
      · have hpm : p ∈ phases := (readyPhase_some phases _ p hready).1
        exact (List.mem_singleton.mp h) ▸ hpm
    | none =>
      rw [hready] at hok
      obtain ⟨rfl, -⟩ := topoFinish_ok phases acc ord hok
      exact hacc

/-- A successful topological ordering emits each phase id at most once. -/
theorem topoGo_ok_nodup (phases : List Phase) :
    ∀ (fuel : Nat) (acc ord : List Phase),
      (acc.map (fun q => q.id)).Nodup →
      topoGo phases fuel acc = Except.ok ord →
      (ord.map (fun q => q.id)).Nodup := by
  intro fuel
  induction fuel with
  | zero =>
    intro acc ord hacc hok
    obtain ⟨rfl, -⟩ := topoFinish_ok phases acc ord hok
    exact hacc
  | succ fuel ih =>
    intro acc ord hacc hok
    simp only [topoGo] at hok
    cases hready : readyPhase phases (acc.map (fun q => q.id)) with
    | some p =>
      rw [hready] at hok
      refine ih (acc ++ [p]) ord ?_ hok
      have hnotin : p.id ∉ acc.map (fun q => q.id) :=
        (readyPhase_some phases _ p hready).2.1
      simpa [List.concat_eq_append] using hacc.concat hnotin
    | none =>
      rw [hready] at hok
      obtain ⟨rfl, -⟩ := topoFinish_ok phases acc ord hok
      exact hacc

/-- C3: materializing a mode with phases `[p0, p1(depends_on=[p0])]` creates
exactly two task requests, the second carrying the concrete task id of the
first as its dependency (not the phase id `p0`); independent phases are
processed in declaration order; and every successful ordering is topological
(each phase appears only after all of its dependencies), the order being the
deterministic result of `topoOrder`. -/
theorem materialize_spec :
    materialize
        ⟨"m", "Mode",
          [⟨"p0", "Phase zero", ⟨"P0: plan", []⟩⟩,
           ⟨"p1", "Phase one", ⟨"P1: implement", ["p0"]⟩⟩]⟩ "WF-1" 1
      = some ⟨"WF-1",
          [⟨1, "WF-1", "P0: plan", TaskStatus.opened, []⟩,
           ⟨2, "WF-1", "P1: implement", TaskStatus.opened, [1]⟩],
          [("p0", 1), ("p1", 2)]⟩
    ∧ materialize
        ⟨"m2", "Mode two",
          [⟨"a", "Alpha", ⟨"A", []⟩⟩, ⟨"b", "Beta", ⟨"B", []⟩⟩]⟩ "WF-2" 10
      = some ⟨"WF-2",
          [⟨10, "WF-2", "A", TaskStatus.opened, []⟩,
           ⟨11, "WF-2", "B", TaskStatus.opened, []⟩],
          [("a", 10), ("b", 11)]⟩
    ∧ ∀ (phases ord : List Phase), topoOrder phases = Except.ok ord →
        depsBeforeB ord [] = true := by
  refine ⟨by decide, by decide, ?_⟩
  intro phases ord hok
  exact topoGo_ok_depsBefore phases (phases.length + 1) [] ord rfl hok

/-- Witness for `materialize_spec`: the two-phase example's topological order
lists each phase after its dependencies. -/
theorem materialize_spec_witness :
    depsBeforeB
        [⟨"p0", "Phase zero", ⟨"P0: plan", []⟩⟩,
         ⟨"p1", "Phase one", ⟨"P1: implement", ["p0"]⟩⟩] [] = true :=
  materialize_spec.2.2
    [⟨"p0", "Phase zero", ⟨"P0: plan", []⟩⟩,
     ⟨"p1", "Phase one", ⟨"P1: implement", ["p0"]⟩⟩]
    [⟨"p0", "Phase zero", ⟨"P0: plan", []⟩⟩,
     ⟨"p1", "Phase one", ⟨"P1: implement", ["p0"]⟩⟩]
    rfl

/-- The last element of a list with one appended is the appended element. -/
theorem lastD_append : ∀ (l : List String) (d x : String),
    lastD (l ++ [x]) d = x := by
  intro l
  induction l with
  | nil => intro d x; rfl
  | cons y l' ih => intro d x; exact ih y x

/-- Dropping the head of an edge chain leaves an edge chain. -/
theorem chainB_tail (phases : List Phase) (a : String) (t : List String)
    (h : chainB phases (a :: t) = true) : chainB phases t = true := by
  cases t with
  | nil => rfl
  | cons b t' =>
    simp only [chainB, Bool.and_eq_true] at h
    exact h.2

/-- A suffix of an edge chain is an edge chain. -/
theorem chainB_append_right (phases : List Phase) :
    ∀ (l1 l2 : List String), chainB phases (l1 ++ l2) = true →
      chainB phases l2 = true := by
  intro l1
  induction l1 with
  | nil => intro l2 h; exact h
  | cons a l1' ih =>
    intro l2 h
    exact ih l2 (chainB_tail phases a (l1' ++ l2) h)

/-- An edge chain with one element appended is the chain without it together
with an edge from its last element to the appended one. -/
theorem chainB_snoc_iff (phases : List Phase) :
    ∀ (l : List String) (x y : String),
      chainB phases (x :: (l ++ [y])) = true ↔
        chainB phases (x :: l) = true
          ∧ depEdgeB phases (lastD l x) y = true := by
  intro l
  induction l with
  | nil =>
    intro x y
    simp [chainB, lastD]
  | cons z l' ih =>
    intro x y
    simp only [List.cons_append, chainB, Bool.and_eq_true, lastD]
    constructor
    · rintro ⟨h1, h2⟩
      have h' := (ih z y).mp (by simpa using h2)
      exact ⟨⟨h1, h'.1⟩, h'.2⟩
    · rintro ⟨⟨h1, h2⟩, h3⟩
      exact ⟨h1, by simpa using (ih z y).mpr ⟨h2, h3⟩⟩

/-- Extending an edge chain along one more edge. -/
theorem chainB_push (phases : List Phase) (seen : List String) (x d : String)
    (h1 : chainB phases (seen ++ [x]) = true)
    (h2 : depEdgeB phases x d = true) :
    chainB phases ((seen ++ [x]) ++ [d]) = true := by
  cases seen with
  | nil =>
    simp [chainB, h2]
  | cons s0 s' =>
    have hshape : ((s0 :: s') ++ [x]) ++ [d] = s0 :: ((s' ++ [x]) ++ [d]) := by
      simp
    rw [hshape, chainB_snoc_iff phases (s' ++ [x]) s0 d, lastD_append]
    exact ⟨h1, h2⟩

/-- The suffix from the first occurrence of a contained element starts with
that element and splits the list. -/
theorem dropUntil_spec (x : String) :
    ∀ (seen : List String), seen.contains x = true →
      ∃ pre post, seen = pre ++ x :: post ∧ dropUntil x seen = x :: post := by
  intro seen
  induction seen with
  | nil => intro h; simp at h
  | cons y rest ih =>
    intro h
    by_cases hyx : y = x
    · subst hyx
      exact ⟨[], rest, by simp, by simp [dropUntil]⟩
    · have hxr : rest.contains x = true := by
        have hmem : x ∈ y :: rest := by simpa using h
        rcases List.mem_cons.mp hmem with h' | h'
        · exact absurd h'.symm hyx
        · simpa using h'
      obtain ⟨pre, post, hsplit, hdrop⟩ := ih hxr
      refine ⟨y :: pre, post, by simp [hsplit], ?_⟩
      have hyxb : (y == x) = false := by simpa using hyx
      simp [dropUntil, hyxb, hdrop]

/-- A looked-up phase is declared and carries the looked-up id. -/
theorem lookupPhase_some (phases : List Phase) (x : String) (p : Phase)
    (h : lookupPhase phases x = some p) : p ∈ phases ∧ p.id = x := by
  unfold lookupPhase at h
  refine ⟨List.mem_of_find?_eq_some h, ?_⟩
  have h' := List.find?_some h
  simpa using h'

/-- With unique phase ids, looking up a declared phase's id finds it. -/
theorem lookupPhase_eq_of_nodup (q : Phase) :
    ∀ (phases : List Phase), (phases.map (fun r => r.id)).Nodup →
      q ∈ phases → lookupPhase phases q.id = some q := by
  intro phases
  induction phases with
  | nil => intro _ hq; cases hq
  | cons p rest ih =>
    intro hnd hq
    have hnd2 : (∀ x ∈ rest, ¬ x.id = p.id)
        ∧ (rest.map (fun r => r.id)).Nodup := by
      simpa using hnd
    rcases List.mem_cons.mp hq with h | h
    · subst h
      unfold lookupPhase
      simp [List.find?_cons]
    · have hpq : (p.id == q.id) = false := by
        have hne : p.id ≠ q.id := fun hcontra => hnd2.1 q h hcontra.symm
        simpa using hne
      unfold lookupPhase
      simp only [List.find?_cons, hpq]
      exact ih hnd2.2 h

/-- The source of a dependency edge is a declared phase carrying the target
among its dependencies. -/
theorem depEdgeB_declared (phases : List Phase) (x y : String)
    (h : depEdgeB phases x y = true) :
    ∃ p, p ∈ phases ∧ p.id = x ∧ y ∈ phaseDeps p := by
  unfold depEdgeB at h
  cases hlook : lookupPhase phases x with
  | none =>
    rw [hlook] at h
    simp at h
  | some p =>
    rw [hlook] at h
    obtain ⟨hp, hid⟩ := lookupPhase_some phases x p hlook
    exact ⟨p, hp, hid, by simpa using h⟩

/-- Any cycle the walk reports is a genuine dependency cycle: the walk's
visited path is an edge chain, and the reported suffix closes on itself. -/
theorem walkCycle_sound (phases : List Phase) (emitted : List String) :
    ∀ (fuel : Nat) (x : String) (seen c : List String),
      chainB phases (seen ++ [x]) = true →
      walkCycle phases emitted fuel x seen = some c →
      isCycleB phases c = true := by
  intro fuel
  induction fuel with
  | zero =>
    intro x seen c _ hrun
    simp [walkCycle] at hrun
  | succ fuel ih =>
    intro x seen c hchain hrun
    simp only [walkCycle] at hrun
    cases hmem : seen.contains x with
    | true =>
      rw [hmem] at hrun
      have hc : c = dropUntil x seen := (Option.some.inj hrun).symm
      obtain ⟨pre, post, hsplit, hdrop⟩ := dropUntil_spec x seen hmem
      subst hc
      rw [hdrop]
      have hsuffix : chainB phases ((x :: post) ++ [x]) = true := by
        apply chainB_append_right phases pre
        have hassoc : pre ++ ((x :: post) ++ [x]) = seen ++ [x] := by
          rw [hsplit]
          simp
        rw [hassoc]
        exact hchain
      have hsnoc := (chainB_snoc_iff phases post x x).mp (by simpa using hsuffix)
      simp only [isCycleB, Bool.and_eq_true]
      exact ⟨hsnoc.1, hsnoc.2⟩
    | false =>
      rw [hmem] at hrun
      cases hfb : firstBlocked phases emitted x with
      | none =>
        rw [hfb] at hrun
        simp at hrun
      | some d =>
        rw [hfb] at hrun
        refine ih d (seen ++ [x]) c ?_ hrun
        apply chainB_push phases seen x d hchain
        unfold firstBlocked at hfb
        cases hlook : lookupPhase phases x with
        | none =>
          rw [hlook] at hfb
          simp at hfb
        | some p =>
          rw [hlook] at hfb
          have hd := List.mem_of_find?_eq_some hfb
          unfold depEdgeB
          rw [hlook]
          simpa using hd

/-- Along an edge chain, every element either has an outgoing edge to a chain
element or is the last element. -/
theorem chain_mem_next (phases : List Phase) :
    ∀ (rest : List String) (h x : String),
      chainB phases (h :: rest) = true → x ∈ h :: rest →
      (∃ y, y ∈ h :: rest ∧ depEdgeB phases x y = true) ∨ x = lastD rest h := by
  intro rest
  induction rest with
  | nil =>
    intro h x _ hx
    right
    have hxh : x = h := by simpa using hx
    simpa [lastD] using hxh
  | cons z rest' ih =>
    intro h x hchain hx
    simp only [chainB, Bool.and_eq_true] at hchain
    rcases List.mem_cons.mp hx with hxh | hxt
    · subst hxh
      exact Or.inl ⟨z, by simp, hchain.1⟩
    · rcases ih z x hchain.2 hxt with ⟨y, hy, hedge⟩ | hlast
      · exact Or.inl ⟨y, List.mem_cons.mpr (Or.inr hy), hedge⟩
      · right
        simpa [lastD] using hlast

/-- Every element of a dependency cycle has an outgoing edge to another
element of the cycle. -/
theorem cycle_next (phases : List Phase) (c : List String)
    (hc : isCycleB phases c = true) :
    ∀ x ∈ c, ∃ y, y ∈ c ∧ depEdgeB phases x y = true := by
  cases c with
  | nil => simp [isCycleB] at hc
  | cons h rest =>
    simp only [isCycleB, Bool.and_eq_true] at hc
    intro x hx
    rcases chain_mem_next phases rest h x hc.1 hx with ⟨y, hy, hedge⟩ | hlast
    · exact ⟨y, hy, hedge⟩
    · subst hlast
      exact ⟨h, by simp, hc.2⟩

/-- A phase list in which every phase's dependencies are listed before it
admits no dependency cycle among its ids. -/
theorem depsBefore_no_cycle (phases : List Phase)
    (hnd : (phases.map (fun q => q.id)).Nodup) (c : List String)
    (hc : isCycleB phases c = true) :
    ∀ (l : List Phase) (s : List String),
      (∀ q ∈ l, q ∈ phases) →
      depsBeforeB l s = true →
      (∀ x ∈ c, x ∉ s) →
      (∀ x ∈ c, x ∈ l.map (fun q => q.id)) → False := by
  intro l
  induction l with
  | nil =>
    intro s _ _ _ hmem
    cases c with
    | nil => simp [isCycleB] at hc
    | cons h rest => simpa using hmem h (by simp)
  | cons q l' ih =>
    intro s hsub hdeps hnotin hmem
    simp only [depsBeforeB, Bool.and_eq_true] at hdeps
    by_cases hqc : q.id ∈ c
    · obtain ⟨y, hy, hedge⟩ := cycle_next phases c hc q.id hqc
      have hlook : lookupPhase phases q.id = some q :=
        lookupPhase_eq_of_nodup q phases hnd (hsub q (by simp))
      have hydep : y ∈ phaseDeps q := by
        unfold depEdgeB at hedge
        rw [hlook] at hedge
        simpa using hedge
      have hys : y ∈ s := by
        have hall := hdeps.1
        rw [List.all_eq_true] at hall
        simpa using hall y hydep
      exact hnotin y hy hys
    · refine ih (s ++ [q.id]) (fun r hr => hsub r (by simp [hr]))
        hdeps.2 ?_ ?_
      · intro x hx hxmem
        rcases List.mem_append.mp hxmem with h | h
        · exact hnotin x hx h
        · have hxq : x = q.id := by simpa using h
          exact hqc (hxq ▸ hx)
      · intro x hx
        have hx' := hmem x hx
        simp only [List.map_cons, List.mem_cons] at hx'
        rcases hx' with h | h
        · exact absurd (h ▸ hx) hqc
        · exact h

/-- A successful topological ordering certifies the phase graph acyclic. -/
theorem topoOrder_ok_no_cycle (phases : List Phase)
    (hnd : (phases.map (fun q => q.id)).Nodup) (ord : List Phase)
    (hok : topoOrder phases = Except.ok ord) :
    ∀ (c : List String), isCycleB phases c = false := by
  intro c
  by_contra hcontra
  have hc : isCycleB phases c = true := by
    cases h : isCycleB phases c
    · exact absurd h hcontra
    · rfl
  have hdeps := topoGo_ok_depsBefore phases (phases.length + 1) [] ord rfl hok
  have hmemphases :=
    topoGo_ok_mem phases (phases.length + 1) [] ord (by simp) hok
  have hcomplete := topoGo_ok_complete phases (phases.length + 1) [] ord hok
  refine depsBefore_no_cycle phases hnd c hc ord [] hmemphases hdeps
    (by simp) ?_
  intro x hx
  obtain ⟨y, hy, hedge⟩ := cycle_next phases c hc x hx
  obtain ⟨p, hp, hpid, -⟩ := depEdgeB_declared phases x y hedge
  exact hpid ▸ hcomplete p hp

/-- Inversion for the terminal step's failure: the stuck set is the emitted
id set and some declared phase is not emitted. -/
theorem topoFinish_err (phases acc : List Phase) (E : List String)
    (herr : topoFinish phases acc = Except.error E) :
    E = acc.map (fun q => q.id)
    ∧ ∃ p ∈ phases, p.id ∉ acc.map (fun q => q.id) := by
  unfold topoFinish at herr
  cases hall : phases.all (fun p => ((acc.map (fun q => q.id)).contains p.id))
    with
  | true =>
    rw [hall] at herr
    exact absurd herr (by simp)
  | false =>
    rw [hall] at herr
    refine ⟨(Except.error.inj herr).symm, ?_⟩
    rw [List.all_eq_false] at hall
    obtain ⟨p, hp, hnc⟩ := hall
    exact ⟨p, hp, by simpa using hnc⟩

/-- When the topological ordering fails, the reported emitted set is stuck
(no phase is ready against it) and some declared phase is missing from it. -/
theorem topoGo_err_stuck (phases : List Phase) :
    ∀ (fuel : Nat) (acc : List Phase) (E : List String),
      (acc.map (fun q => q.id)).Nodup →
      (∀ q ∈ acc, q ∈ phases) →
      phases.length + 1 ≤ fuel + acc.length →
      topoGo phases fuel acc = Except.error E →
      readyPhase phases E = none ∧ ∃ p ∈ phases, p.id ∉ E := by
  intro fuel
  induction fuel with
  | zero =>
    intro acc E hndacc hmem hbound hrun
    exfalso
    have hsub : (acc.map (fun q => q.id)) ⊆ (phases.map (fun q => q.id)) := by
      intro x hx
      obtain ⟨q, hq, hqx⟩ := List.mem_map.mp hx
      exact List.mem_map.mpr ⟨q, hmem q hq, hqx⟩
    have hlen := (List.subperm_of_subset hndacc hsub).length_le
    simp only [List.length_map] at hlen
    omega
  | succ fuel ih =>
    intro acc E hndacc hmem hbound hrun
    simp only [topoGo] at hrun
    cases hready : readyPhase phases (acc.map (fun q => q.id)) with
    | some p =>
      rw [hready] at hrun
      obtain ⟨hpmem, hpnew, -⟩ := readyPhase_some phases _ p hready
      refine ih (acc ++ [p]) E ?_ ?_ ?_ hrun
      · simpa [List.concat_eq_append] using hndacc.concat hpnew
      · intro q hq
        rcases List.mem_append.mp hq with h | h
        · exact hmem q h
        · exact (List.mem_singleton.mp h) ▸ hpmem
      · simp only [List.length_append, List.length_cons, List.length_nil]
        omega
    | none =>
      rw [hready] at hrun
      obtain ⟨hE, hexists⟩ := topoFinish_err phases acc E hrun
      subst hE
      exact ⟨hready, hexists⟩

/-- Against a stuck emitted set with all dependencies declared, the walk
always terminates by revisiting a node, i.e. it reports a cycle. -/
theorem walkCycle_some (phases : List Phase) (emitted : List String)
    (hstuck : readyPhase phases emitted = none)
    (hdecl : ∀ p ∈ phases, ∀ d ∈ phaseDeps p, ∃ q ∈ phases, q.id = d) :
    ∀ (fuel : Nat) (x : String) (seen : List String),
      seen.Nodup →
      (∀ y ∈ seen, ∃ q ∈ phases, q.id = y) →
      (∀ y ∈ seen, y ∉ emitted) →
      (∃ q ∈ phases, q.id = x) →
      x ∉ emitted →
      phases.length + 1 ≤ fuel + seen.length →
      (walkCycle phases emitted fuel x seen).isSome = true := by
  intro fuel
  induction fuel with
  | zero =>
    intro x seen hnd hdecls hnotem hx hxem hbound
    exfalso
    have hsub : seen ⊆ phases.map (fun q => q.id) := by
      intro y hy
      obtain ⟨q, hq, hqid⟩ := hdecls y hy
      exact List.mem_map.mpr ⟨q, hq, hqid⟩
    have hlen := (List.subperm_of_subset hnd hsub).length_le
    simp only [List.length_map] at hlen
    omega
  | succ fuel ih =>
    intro x seen hnd hdecls hnotem hx hxem hbound
    simp only [walkCycle]
    cases hmem : seen.contains x with
    | true => simp
    | false =>
      have hxseen : x ∉ seen := by simpa using hmem
      obtain ⟨qx, hqx, hqxid⟩ := hx
      have hlook : (lookupPhase phases x).isSome = true := by
        unfold lookupPhase
        rw [List.find?_isSome]
        exact ⟨qx, hqx, by simpa using hqxid⟩
      cases hlookup : lookupPhase phases x with
      | none =>
        rw [hlookup] at hlook
        simp at hlook
      | some p =>
        obtain ⟨hpmem, hpid⟩ := lookupPhase_some phases x p hlookup
        have hpred : ∀ r ∈ phases,
            ¬ ((!emitted.contains r.id
              && (phaseDeps r).all (fun d => emitted.contains d)) = true) := by
          unfold readyPhase at hstuck
          rw [List.find?_eq_none] at hstuck
          exact hstuck
        have hA : (!emitted.contains p.id) = true := by
          rw [hpid]
          simpa using hxem
        have hB : ((phaseDeps p).all (fun d => emitted.contains d))
            = false := by
          cases hB' : (phaseDeps p).all (fun d => emitted.contains d) with
          | false => rfl
          | true =>
            exact absurd (by rw [Bool.and_eq_true]; exact ⟨hA, hB'⟩)
              (hpred p hpmem)
        rw [List.all_eq_false] at hB
        obtain ⟨d0, hd0, hd0n⟩ := hB
        have hfbsome : (firstBlocked phases emitted x).isSome = true := by
          unfold firstBlocked
          rw [hlookup, List.find?_isSome]
          exact ⟨d0, hd0, by simpa using hd0n⟩
        cases hfb : firstBlocked phases emitted x with
        | none =>
          rw [hfb] at hfbsome
          simp at hfbsome
        | some d =>
          have hdmem : d ∈ phaseDeps p := by
            unfold firstBlocked at hfb
            rw [hlookup] at hfb
            exact List.mem_of_find?_eq_some hfb
          have hdnot : d ∉ emitted := by
            unfold firstBlocked at hfb
            rw [hlookup] at hfb
            have h' := List.find?_some hfb
            simpa using h'
          refine ih d (seen ++ [x]) ?_ ?_ ?_ ?_ hdnot ?_
          · simpa [List.concat_eq_append] using hnd.concat hxseen
          · intro y hy
            rcases List.mem_append.mp hy with h | h
            · exact hdecls y h
            · exact (List.mem_singleton.mp h) ▸ ⟨p, hpmem, hpid⟩
          · intro y hy
            rcases List.mem_append.mp hy with h | h
            · exact hnotem y h
            · exact (List.mem_singleton.mp h) ▸ hxem
          · exact hdecl p hpmem d hdmem
          · simp only [List.length_append, List.length_cons,
              List.length_nil]
            omega

/-- `findDuplicate` returns nothing exactly on duplicate-free lists. -/
theorem findDuplicate_none_iff :
    ∀ (l : List String), findDuplicate l = none ↔ l.Nodup := by
  intro l
  induction l with
  | nil => simp [findDuplicate]
  | cons x rest ih =>
    cases hx : rest.contains x with
    | true =>
      have hxm : x ∈ rest := by simpa using hx
      simp [findDuplicate, hx, List.nodup_cons, hxm]
    | false =>
      have hxm : x ∉ rest := by simpa using hx
      simp [findDuplicate, hx, List.nodup_cons, hxm, ih]

/-- A phase list the parser accepts has an acyclic dependency graph. -/
theorem parseOk_no_cycle (phases ord : List Phase)
    (hok : parsePhases phases = Except.ok ord) :
    ∀ (c : List String), isCycleB phases c = false := by
  cases h1 : findDuplicate (phases.map (fun p => p.id)) with
  | some d =>
    simp [parsePhases, h1] at hok
  | none =>
    cases h2 : phases.find? (fun p => (phaseDeps p).contains p.id) with
    | some p =>
      have hcomp : parsePhases phases
          = Except.error (ParseError.selfDependency p.id) := by
        simp only [parsePhases, h1, h2]
      rw [hcomp] at hok
      simp at hok
    | none =>
      cases h3 : phases.find?
          (fun p => !(phaseDeps p).all
            (fun d => phases.any (fun q => q.id == d))) with
      | some p =>
        have hcomp : parsePhases phases
            = Except.error (ParseError.unknownDependency p.id
              (((phaseDeps p).find?
                (fun d => !phases.any (fun q => q.id == d))).getD "")) := by
          simp only [parsePhases, h1, h2, h3]
        rw [hcomp] at hok
        simp at hok
      | none =>
        have hstage : cycleStage phases = Except.ok ord := by
          rw [← hok]
          simp only [parsePhases, h1, h2, h3]
        cases h4 : topoOrder phases with
        | ok ord' =>
          have hnd : (phases.map (fun p => p.id)).Nodup :=
            (findDuplicate_none_iff _).mp h1
          exact topoOrder_ok_no_cycle phases hnd ord' h4
        | error E =>
          simp only [cycleStage, h4, cycleReport] at hstage
          cases h5 : findCycle phases E with
          | some c' => simp [cycleReport, h5] at hstage
          | none => simp [cycleReport, h5] at hstage

/-- The dependency declaredness check of the parser, propositionally. -/
theorem parse_decl_of_find?_none (phases : List Phase)
    (h3 : phases.find?
        (fun p => !(phaseDeps p).all
          (fun d => phases.any (fun q => q.id == d))) = none) :
    ∀ p ∈ phases, ∀ d ∈ phaseDeps p, ∃ q ∈ phases, q.id = d := by
  rw [List.find?_eq_none] at h3
  intro p hp d hd
  have hnp := h3 p hp
  have hall : ((phaseDeps p).all
      (fun d => phases.any (fun q => q.id == d))) = true := by
    cases hA : (phaseDeps p).all (fun d => phases.any (fun q => q.id == d))
      with
    | true => rfl
    | false => exact absurd (by simp [hA]) hnp
  rw [List.all_eq_true] at hall
  have hany := hall d hd
  obtain ⟨q, hq, hqd⟩ : ∃ q ∈ phases, q.id = d := by simpa using hany
  exact ⟨q, hq, hqd⟩

/-- When the parser rejects with a cycle error, the reported path is a
genuine dependency cycle of the phase list. -/
theorem parseCyc_sound (phases : List Phase) (c : List String)
    (herr : parsePhases phases = Except.error (ParseError.cyclicDependency c)) :
    isCycleB phases c = true := by
  cases h1 : findDuplicate (phases.map (fun p => p.id)) with
  | some d =>
    simp [parsePhases, h1] at herr
  | none =>
    cases h2 : phases.find? (fun p => (phaseDeps p).contains p.id) with
    | some p =>
      have hcomp : parsePhases phases
          = Except.error (ParseError.selfDependency p.id) := by
        simp only [parsePhases, h1, h2]
      rw [hcomp] at herr
      simp at herr
    | none =>
      cases h3 : phases.find?
          (fun p => !(phaseDeps p).all
            (fun d => phases.any (fun q => q.id == d))) with
      | some p =>
        have hcomp : parsePhases phases
            = Except.error (ParseError.unknownDependency p.id
              (((phaseDeps p).find?
                (fun d => !phases.any (fun q => q.id == d))).getD "")) := by
          simp only [parsePhases, h1, h2, h3]
        rw [hcomp] at herr
        simp at herr
      | none =>
        have hstage : cycleStage phases
            = Except.error (ParseError.cyclicDependency c) := by
          rw [← herr]
          simp only [parsePhases, h1, h2, h3]
        cases h4 : topoOrder phases with
        | ok ord' =>
          simp [cycleStage, h4] at hstage
        | error E =>
          simp only [cycleStage, h4, cycleReport] at hstage
          cases h5 : findCycle phases E with
          | some c' =>
            simp only [h5, Except.error.injEq,
              ParseError.cyclicDependency.injEq] at hstage
            subst hstage
            unfold findCycle at h5
            cases hf : phases.find? (fun p => !E.contains p.id) with
            | none =>
              rw [hf] at h5
              exact absurd h5 (by simp)
            | some p0 =>
              rw [hf] at h5
              exact walkCycle_sound phases E (phases.length + 1) p0.id [] c'
                rfl h5
          | none =>
            exfalso
            have hnd : (phases.map (fun p => p.id)).Nodup :=
              (findDuplicate_none_iff _).mp h1
            have hdecl := parse_decl_of_find?_none phases h3
            obtain ⟨hstuck, p1, hp1, hp1E⟩ :=
              topoGo_err_stuck phases (phases.length + 1) [] E (by simp)
                (by simp) (by simp) h4
            have hfsome : (phases.find? (fun p => !E.contains p.id)).isSome
                = true := by
              rw [List.find?_isSome]
              exact ⟨p1, hp1, by simpa using hp1E⟩
            cases hf : phases.find? (fun p => !E.contains p.id) with
            | none =>
              rw [hf] at hfsome
              simp at hfsome
            | some p0 =>
              have hp0 := List.mem_of_find?_eq_some hf
              have hp0E : p0.id ∉ E := by
                have h' := List.find?_some hf
                simpa using h'
              have hsome := walkCycle_some phases E hstuck hdecl
                (phases.length + 1) p0.id [] (by simp) (by simp) (by simp)
                ⟨p0, hp0, rfl⟩ hp0E (by simp)
              unfold findCycle at h5
              rw [hf] at h5
              have h5' : walkCycle phases E (phases.length + 1) p0.id []
                  = none := h5
              rw [h5'] at hsome
              simp at hsome

/-- A well-formed phase list (unique ids, declared dependencies, no
self-reference) that contains a dependency cycle is rejected by the parser
with a cycle error whose path is a genuine cycle. -/
theorem parseCyc_complete (phases : List Phase) (c0 : List String)
    (hnd : (phases.map (fun p => p.id)).Nodup)
    (hdecl : ∀ p ∈ phases, ∀ d ∈ phaseDeps p, ∃ q ∈ phases, q.id = d)
    (hself : ∀ p ∈ phases, p.id ∉ phaseDeps p)
    (hcyc : isCycleB phases c0 = true) :
    ∃ c, parsePhases phases = Except.error (ParseError.cyclicDependency c)
      ∧ isCycleB phases c = true := by
  have h1 : findDuplicate (phases.map (fun p => p.id)) = none :=
    (findDuplicate_none_iff _).mpr hnd
  have h2 : phases.find? (fun p => (phaseDeps p).contains p.id) = none := by
    rw [List.find?_eq_none]
    intro p hp
    simpa using hself p hp
  have h3 : phases.find?
      (fun p => !(phaseDeps p).all
        (fun d => phases.any (fun q => q.id == d))) = none := by
    rw [List.find?_eq_none]
    intro p hp
    have hall : ((phaseDeps p).all
        (fun d => phases.any (fun q => q.id == d))) = true := by
      rw [List.all_eq_true]
      intro d hd
      obtain ⟨q, hq, hqd⟩ := hdecl p hp d hd
      have : ∃ q ∈ phases, (q.id == d) = true := ⟨q, hq, by simpa using hqd⟩
      simpa using this
    simp [hall]
  cases h4 : topoOrder phases with
  | ok ord =>
    have := topoOrder_ok_no_cycle phases hnd ord h4 c0
    rw [this] at hcyc
    exact absurd hcyc (by simp)
  | error E =>
    obtain ⟨hstuck, p1, hp1, hp1E⟩ :=
      topoGo_err_stuck phases (phases.length + 1) [] E (by simp) (by simp)
        (by simp) h4
    have hfsome : (phases.find? (fun p => !E.contains p.id)).isSome
        = true := by
      rw [List.find?_isSome]
      exact ⟨p1, hp1, by simpa using hp1E⟩
    cases hf : phases.find? (fun p => !E.contains p.id) with
    | none =>
      rw [hf] at hfsome
      simp at hfsome
    | some p0 =>
      have hp0 := List.mem_of_find?_eq_some hf
      have hp0E : p0.id ∉ E := by
        have h' := List.find?_some hf
        simpa using h'
      have hsome := walkCycle_some phases E hstuck hdecl
        (phases.length + 1) p0.id [] (by simp) (by simp) (by simp)
        ⟨p0, hp0, rfl⟩ hp0E (by simp)
      cases hwalk : walkCycle phases E (phases.length + 1) p0.id [] with
      | none =>
        rw [hwalk] at hsome
        simp at hsome
      | some c =>
        have hcycc : isCycleB phases c = true :=
          walkCycle_sound phases E (phases.length + 1) p0.id [] c rfl hwalk
        refine ⟨c, ?_, hcycc⟩
        simp only [parsePhases, h1, h2, h3, cycleStage, h4, cycleReport,
          findCycle, hf, hwalk]

/-- C4: parsing succeeds only if the phase `dependsOn` graph is acyclic; a
cycle-error is always reported with a genuine cycle path; and a well-formed
definition (unique ids, declared dependencies, no self-reference) containing
a cycle is rejected at parse time with an error naming a specific cycle
path. -/
theorem parsePhases_cycle_spec :
    (∀ (phases ord : List Phase), parsePhases phases = Except.ok ord →
      ∀ (c : List String), isCycleB phases c = false)
    ∧ (∀ (phases : List Phase) (c : List String),
        parsePhases phases = Except.error (ParseError.cyclicDependency c) →
        isCycleB phases c = true)
    ∧ (∀ (phases : List Phase) (c0 : List String),
        (phases.map (fun p => p.id)).Nodup →
        (∀ p ∈ phases, ∀ d ∈ phaseDeps p, ∃ q ∈ phases, q.id = d) →
        (∀ p ∈ phases, p.id ∉ phaseDeps p) →
        isCycleB phases c0 = true →
        ∃ c, parsePhases phases = Except.error (ParseError.cyclicDependency c)
          ∧ isCycleB phases c = true) :=
  ⟨parseOk_no_cycle, parseCyc_sound, parseCyc_complete⟩

/-- Witness for `parsePhases_cycle_spec`: two mutually dependent phases are
rejected with the concrete cycle path, which is a genuine cycle. -/
theorem parsePhases_cycle_spec_witness :
    ∃ c, parsePhases
        [⟨"a", "Alpha", ⟨"TA", ["b"]⟩⟩, ⟨"b", "Beta", ⟨"TB", ["a"]⟩⟩]
      = Except.error (ParseError.cyclicDependency c)
      ∧ isCycleB
          [⟨"a", "Alpha", ⟨"TA", ["b"]⟩⟩, ⟨"b", "Beta", ⟨"TB", ["a"]⟩⟩]
          c = true :=
  parsePhases_cycle_spec.2.2
    [⟨"a", "Alpha", ⟨"TA", ["b"]⟩⟩, ⟨"b", "Beta", ⟨"TB", ["a"]⟩⟩]
    ["a", "b"]
    (by decide)
    (by decide)
    (by decide)
    (by decide)

/-- A file present in a filesystem keeps its content under appends: lookup
finds the first entry for a path. -/
theorem fileContent_append_left (fs app : Fs) (q : List String) (c : String)
    (h : fileContent fs q = some c) : fileContent (fs ++ app) q = some c := by
  unfold fileContent at h ⊢
  rw [List.find?_append]
  cases hf : fs.find? (fun e => e.1 == q) with
  | none =>
    rw [hf] at h
    simp at h
  | some e =>
    rw [hf] at h
    simpa using h

/-- File existence is monotone under appends. -/
theorem fileExistsB_mono (fs app : Fs) (q : List String)
    (h : fileExistsB fs q = true) : fileExistsB (fs ++ app) q = true := by
  unfold fileExistsB at h ⊢
  rw [List.any_append, h]
  rfl

/-- Appending entries at other paths does not change existence at a path. -/
theorem fileExistsB_append_other (fs app : Fs) (q : List String)
    (h : ∀ e ∈ app, e.1 ≠ q) :
    fileExistsB (fs ++ app) q = fileExistsB fs q := by
  unfold fileExistsB
  rw [List.any_append]
  have happ : app.any (fun e => e.1 == q) = false := by
    rw [List.any_eq_false]
    intro e he
    simpa using h e he
  rw [happ, Bool.or_false]

/-- An existing file has readable content. -/
theorem fileContent_isSome_of_exists (fs : Fs) (q : List String)
    (h : fileExistsB fs q = true) : ∃ c, fileContent fs q = some c := by
  unfold fileExistsB at h
  rw [List.any_eq_true] at h
  obtain ⟨e, he, hpe⟩ := h
  have hsome : (fs.find? (fun e => e.1 == q)).isSome = true := by
    rw [List.find?_isSome]
    exact ⟨e, he, hpe⟩
  cases hf : fs.find? (fun e => e.1 == q) with
  | none =>
    rw [hf] at hsome
    simp at hsome
  | some e' =>
    refine ⟨e'.2, ?_⟩
    unfold fileContent
    rw [hf]
    rfl

/-- `childName` recognizes exactly the immediate children of a directory. -/
theorem childName_some (dir p : List String) (n : String) :
    childName dir p = some n ↔ p = dir ++ [n] := by
  unfold childName
  constructor
  · intro h
    by_cases hdrop : p.dropLast = dir
    · rw [if_pos hdrop] at h
      obtain ⟨ys, hys⟩ := List.getLast?_eq_some_iff.mp h
      subst hys
      rw [List.dropLast_concat] at hdrop
      rw [hdrop]
    · rw [if_neg hdrop] at h
      exact absurd h (by simp)
  · intro h
    subst h
    rw [if_pos List.dropLast_concat]
    exact List.getLast?_concat _

/-- Appending a single segment to a path is injective. -/
theorem append_singleton_inj (a b : List String) (x y : String)
    (h : a ++ [x] = b ++ [y]) : a = b ∧ x = y := by
  have h' := congrArg List.reverse h
  simp only [List.reverse_append, List.reverse_cons, List.reverse_nil,
    List.nil_append, List.cons_append, List.cons.injEq] at h'
  exact ⟨by simpa using congrArg List.reverse h'.2, h'.1⟩

/-- With distinct file paths, a directory listing has no duplicate names. -/
theorem childNames_nodup (fs : Fs) (dir : List String)
    (hnd : (fs.map Prod.fst).Nodup) : (childNames fs dir).Nodup := by
  have h2 : childNames fs dir
      = (fs.map Prod.fst).filterMap (childName dir) := by
    unfold childNames
    rw [List.filterMap_map]
    rfl
  rw [h2]
  refine List.Nodup.filterMap ?_ hnd
  intro p1 p2 n hn1 hn2
  have e1 := (childName_some dir p1 n).mp (by simpa using hn1)
  have e2 := (childName_some dir p2 n).mp (by simpa using hn2)
  rw [e1, e2]

/-- A directory listing of an appended filesystem splits. -/
theorem childNames_append (fs app : Fs) (dir : List String) :
    childNames (fs ++ app) dir = childNames fs dir ++ childNames app dir := by
  unfold childNames
  exact List.filterMap_append fs app _

/-- Entries that live in other directories contribute no listing names. -/
theorem childNames_eq_nil (app : Fs) (dir : List String)
    (h : ∀ e ∈ app, ∀ n, e.1 ≠ dir ++ [n]) : childNames app dir = [] := by
  unfold childNames
  rw [List.filterMap_eq_nil_iff]
  intro e he
  cases hc : childName dir e.1 with
  | none => rfl
  | some n => exact absurd ((childName_some dir e.1 n).mp hc) (h e he n)

/-- Every listed name has readable content at its path. -/
theorem childNames_content (fs : Fs) (dir : List String) :
    ∀ n ∈ childNames fs dir,
      (fileContent fs (dir ++ [n])).isSome = true := by
  intro n hn
  unfold childNames at hn
  obtain ⟨e, he, hcn⟩ := List.mem_filterMap.mp hn
  have hpath := (childName_some dir e.1 n).mp hcn
  have hsome : (fs.find? (fun x => x.1 == (dir ++ [n]))).isSome = true := by
    rw [List.find?_isSome]
    refine ⟨e, he, ?_⟩
    simp [hpath]
  unfold fileContent
  cases hf : fs.find? (fun x => x.1 == (dir ++ [n])) with
  | none =>
    rw [hf] at hsome
    simp at hsome
  | some e' => simp

/-- The copy loop on an already-present destination skips the file. -/
theorem copyFiles_cons_true (srcDir destDir : List String) (n : String)
    (rest : List String) (fs : Fs) (copied skipped : List String)
    (h : fileExistsB fs (destDir ++ [n]) = true) :
    copyFiles srcDir destDir (n :: rest) fs copied skipped
      = copyFiles srcDir destDir rest fs copied (skipped ++ [n]) := by
  simp only [copyFiles, h]

/-- The copy loop on an absent destination copies the source file. -/
theorem copyFiles_cons_false (srcDir destDir : List String) (n : String)
    (rest : List String) (fs : Fs) (copied skipped : List String) (c : String)
    (h1 : fileExistsB fs (destDir ++ [n]) = false)
    (h2 : fileContent fs (srcDir ++ [n]) = some c) :
    copyFiles srcDir destDir (n :: rest) fs copied skipped
      = copyFiles srcDir destDir rest (fs ++ [(destDir ++ [n], c)])
          (copied ++ [n]) skipped := by
  simp only [copyFiles, h1, h2]

/-- A path that does not exist in a filesystem is not among its file paths. -/
theorem not_mem_paths_of_not_exists (fs : Fs) (q : List String)
    (h : fileExistsB fs q = false) : q ∉ fs.map Prod.fst := by
  intro hmem
  obtain ⟨e, he, hq⟩ := List.mem_map.mp hmem
  unfold fileExistsB at h
  rw [List.any_eq_false] at h
  exact h e he (by simp [hq])

/-- The copy loop only appends to the filesystem. -/
theorem copyFiles_fs_ext (srcDir destDir : List String) :
    ∀ (names : List String) (fs : Fs) (copied skipped : List String),
      ∃ app, (copyFiles srcDir destDir names fs copied skipped).1
        = fs ++ app := by
  intro names
  induction names with
  | nil =>
    intro fs copied skipped
    exact ⟨[], by simp [copyFiles]⟩
  | cons n rest ih =>
    intro fs copied skipped
    cases hex : fileExistsB fs (destDir ++ [n]) with
    | true =>
      rw [copyFiles_cons_true srcDir destDir n rest fs copied skipped hex]
      exact ih fs copied (skipped ++ [n])
    | false =>
      cases hco : fileContent fs (srcDir ++ [n]) with
      | some c =>
        rw [copyFiles_cons_false srcDir destDir n rest fs copied skipped c
          hex hco]
        obtain ⟨app, happ⟩ :=
          ih (fs ++ [(destDir ++ [n], c)]) (copied ++ [n]) skipped
        exact ⟨[(destDir ++ [n], c)] ++ app,
          by rw [happ, List.append_assoc]⟩
      | none =>
        have hstep : copyFiles srcDir destDir (n :: rest) fs copied skipped
            = copyFiles srcDir destDir rest fs copied skipped := by
          simp only [copyFiles, hex, hco]
        rw [hstep]
        exact ih fs copied skipped

/-- Full characterization of the copy loop relative to the filesystem `fs0`
seen at directory-listing time: the loop only appends fresh files under the
destination directory, the copied names are exactly the listed names whose
destination was absent, the skipped names are exactly those whose destination
was present, and afterwards every listed name exists at the destination. -/
theorem copyFiles_spec (srcDir destDir : List String) (fs0 : Fs) :
    ∀ (names : List String) (fs : Fs) (copied skipped : List String)
      (app : Fs),
      names.Nodup →
      (∀ n ∈ names, (fileContent fs0 (srcDir ++ [n])).isSome = true) →
      fs = fs0 ++ app →
      (∀ e ∈ app, ∀ n ∈ names, e.1 ≠ destDir ++ [n]) →
      (fs.map Prod.fst).Nodup →
      (∃ app2,
          (copyFiles srcDir destDir names fs copied skipped).1 = fs ++ app2
          ∧ ∀ e ∈ app2, ∃ n, n ∈ names ∧ e.1 = destDir ++ [n]
              ∧ fileExistsB fs0 (destDir ++ [n]) = false)
      ∧ (copyFiles srcDir destDir names fs copied skipped).2.1
          = copied ++ names.filter
              (fun n => !fileExistsB fs0 (destDir ++ [n]))
      ∧ (copyFiles srcDir destDir names fs copied skipped).2.2
          = skipped ++ names.filter
              (fun n => fileExistsB fs0 (destDir ++ [n]))
      ∧ (∀ n ∈ names,
          fileExistsB (copyFiles srcDir destDir names fs copied skipped).1
            (destDir ++ [n]) = true)
      ∧ ((copyFiles srcDir destDir names fs copied
            skipped).1.map Prod.fst).Nodup := by
  intro names
  induction names with
  | nil =>
    intro fs copied skipped app _ _ _ _ hndfs
    refine ⟨⟨[], by simp [copyFiles], by simp⟩, ?_, ?_, ?_, ?_⟩
    · simp [copyFiles]
    · simp [copyFiles]
    · simp
    · simpa [copyFiles] using hndfs
  | cons n rest ih =>
    intro fs copied skipped app hnd hcont hfs happ hndfs
    have hnd' := List.nodup_cons.mp hnd
    have hlive : fileExistsB fs (destDir ++ [n])
        = fileExistsB fs0 (destDir ++ [n]) := by
      rw [hfs]
      exact fileExistsB_append_other fs0 app (destDir ++ [n])
        (fun e he => happ e he n (by simp))
    cases hex : fileExistsB fs0 (destDir ++ [n]) with
    | true =>
      have hlive' : fileExistsB fs (destDir ++ [n]) = true := by
        rw [hlive, hex]
      rw [copyFiles_cons_true srcDir destDir n rest fs copied skipped hlive']
      obtain ⟨⟨app2, hfs2, happ2⟩, hcop, hskip, hex2, hnod2⟩ :=
        ih fs copied (skipped ++ [n]) app hnd'.2
          (fun m hm => hcont m (by simp [hm])) hfs
          (fun e he m hm => happ e he m (by simp [hm])) hndfs
      refine ⟨⟨app2, hfs2, ?_⟩, ?_, ?_, ?_, hnod2⟩
      · intro e he
        obtain ⟨m, hm, hp, hx⟩ := happ2 e he
        exact ⟨m, by simp [hm], hp, hx⟩
      · rw [hcop, List.filter_cons]
        simp [hex]
      · rw [hskip, List.filter_cons]
        simp [hex, List.append_assoc]
      · intro m hm
        rcases List.mem_cons.mp hm with h | h
        · subst h
          rw [hfs2]
          exact fileExistsB_mono fs app2 (destDir ++ [m]) hlive'
        · exact hex2 m h
    | false =>
      have hlive' : fileExistsB fs (destDir ++ [n]) = false := by
        rw [hlive, hex]
      obtain ⟨c0, hc0fs0⟩ : ∃ c, fileContent fs0 (srcDir ++ [n]) = some c := by
        have h1 := hcont n (by simp)
        cases hco : fileContent fs0 (srcDir ++ [n]) with
        | none =>
          rw [hco] at h1
          simp at h1
        | some c => exact ⟨c, rfl⟩
      have hc0 : fileContent fs (srcDir ++ [n]) = some c0 := by
        rw [hfs]
        exact fileContent_append_left fs0 app (srcDir ++ [n]) c0 hc0fs0
      rw [copyFiles_cons_false srcDir destDir n rest fs copied skipped c0
        hlive' hc0]
      have hfs' : fs ++ [(destDir ++ [n], c0)]
          = fs0 ++ (app ++ [(destDir ++ [n], c0)]) := by
        rw [hfs, List.append_assoc]
      have happ' : ∀ e ∈ app ++ [(destDir ++ [n], c0)], ∀ m ∈ rest,
          e.1 ≠ destDir ++ [m] := by
        intro e he m hm
        rcases List.mem_append.mp he with h | h
        · exact happ e h m (by simp [hm])
        · have he' : e = (destDir ++ [n], c0) := by simpa using h
          subst he'
          intro hcontra
          have hnm := (append_singleton_inj destDir destDir n m hcontra).2
          exact hnd'.1 (hnm ▸ hm)
      have hndfs' : ((fs ++ [(destDir ++ [n], c0)]).map Prod.fst).Nodup := by
        rw [List.map_append]
        have hfresh : destDir ++ [n] ∉ fs.map Prod.fst :=
          not_mem_paths_of_not_exists fs (destDir ++ [n]) hlive'
        simpa [List.concat_eq_append] using hndfs.concat hfresh
      obtain ⟨⟨app2, hfs2, happ2⟩, hcop, hskip, hex2, hnod2⟩ :=
        ih (fs ++ [(destDir ++ [n], c0)]) (copied ++ [n]) skipped
          (app ++ [(destDir ++ [n], c0)]) hnd'.2
          (fun m hm => hcont m (by simp [hm])) hfs' happ' hndfs'
      refine ⟨⟨[(destDir ++ [n], c0)] ++ app2, ?_, ?_⟩, ?_, ?_, ?_, hnod2⟩
      · rw [hfs2, List.append_assoc]
      · intro e he
        rcases List.mem_append.mp he with h | h
        · have he' : e = (destDir ++ [n], c0) := by simpa using h
          subst he'
          exact ⟨n, by simp, rfl, hex⟩
        · obtain ⟨m, hm, hp, hx⟩ := happ2 e h
          exact ⟨m, by simp [hm], hp, hx⟩
      · rw [hcop, List.filter_cons]
        simp [hex, List.append_assoc]
      · rw [hskip, List.filter_cons]
        simp [hex]
      · intro m hm
        rcases List.mem_cons.mp hm with h | h
        · subst h
          rw [hfs2]
          have hin : fileExistsB (fs ++ [(destDir ++ [m], c0)])
              (destDir ++ [m]) = true := by
            unfold fileExistsB
            rw [List.any_append]
            simp
          exact fileExistsB_mono _ app2 (destDir ++ [m]) hin
        · exact hex2 m h

/-- The three destination directories and three source directories of the
batteries scaffold are pairwise distinct wherever the copy analysis needs
it, for any package root and project root. -/
theorem scaffold_dirs_ne (R K : List String) :
    (R ++ [".claude", "workflows", "templates"]
        ≠ K ++ ["batteries", "templates"])
    ∧ (R ++ [".claude", "workflows", "templates"]
        ≠ K ++ ["batteries", "agents"])
    ∧ (R ++ [".claude", "workflows", "templates"]
        ≠ K ++ ["batteries", "spec-templates"])
    ∧ (R ++ [".claude", "agents"] ≠ K ++ ["batteries", "templates"])
    ∧ (R ++ [".claude", "agents"] ≠ K ++ ["batteries", "agents"])
    ∧ (R ++ [".claude", "agents"] ≠ K ++ ["batteries", "spec-templates"])
    ∧ (R ++ ["planning", "spec-templates"] ≠ K ++ ["batteries", "templates"])
    ∧ (R ++ ["planning", "spec-templates"] ≠ K ++ ["batteries", "agents"])
    ∧ (R ++ ["planning", "spec-templates"]
        ≠ K ++ ["batteries", "spec-templates"])
    ∧ (R ++ [".claude", "workflows", "templates"] ≠ R ++ [".claude", "agents"])
    ∧ (R ++ [".claude", "workflows", "templates"]
        ≠ R ++ ["planning", "spec-templates"])
    ∧ (R ++ [".claude", "agents"] ≠ R ++ ["planning", "spec-templates"]) := by
  refine ⟨?_, ?_, ?_, ?_, ?_, ?_, ?_, ?_, ?_, ?_, ?_, ?_⟩
  all_goals
    intro h
    have h' := congrArg List.reverse h
    simp [List.reverse_append] at h'

/-- Readable content is preserved under appends. -/
theorem fileContent_isSome_mono (fs app : Fs) (q : List String)
    (h : (fileContent fs q).isSome = true) :
    (fileContent (fs ++ app) q).isSome = true := by
  cases hc : fileContent fs q with
  | none =>
    rw [hc] at h
    simp at h
  | some c =>
    rw [fileContent_append_left fs app q c hc]
    rfl

/-- One run of `scaffoldBatteries`: the filesystem only grows by fresh files
under the three destination directories; the three copied-name lists and the
skipped list are exactly the source listings filtered by destination
absence/presence; and afterwards every listed source name exists at its
destination. -/
theorem scaffoldBatteries_run (pkg root : List String) (fs : Fs)
    (hnd : (fs.map Prod.fst).Nodup) :
    ∃ app1 app2 app3,
      (scaffoldBatteries pkg root fs).1 = ((fs ++ app1) ++ app2) ++ app3
      ∧ (∀ e ∈ app1, ∃ n, n ∈ childNames fs (pkg ++ ["batteries", "templates"])
          ∧ e.1 = root ++ [".claude", "workflows", "templates"] ++ [n]
          ∧ fileExistsB fs
              (root ++ [".claude", "workflows", "templates"] ++ [n]) = false)
      ∧ (∀ e ∈ app2, ∃ n, n ∈ childNames fs (pkg ++ ["batteries", "agents"])
          ∧ e.1 = root ++ [".claude", "agents"] ++ [n]
          ∧ fileExistsB fs (root ++ [".claude", "agents"] ++ [n]) = false)
      ∧ (∀ e ∈ app3, ∃ n,
          n ∈ childNames fs (pkg ++ ["batteries", "spec-templates"])
          ∧ e.1 = root ++ ["planning", "spec-templates"] ++ [n]
          ∧ fileExistsB fs
              (root ++ ["planning", "spec-templates"] ++ [n]) = false)
      ∧ (scaffoldBatteries pkg root fs).2.templates
          = (childNames fs (pkg ++ ["batteries", "templates"])).filter
              (fun n => !fileExistsB fs
                (root ++ [".claude", "workflows", "templates"] ++ [n]))
      ∧ (scaffoldBatteries pkg root fs).2.agents
          = (childNames fs (pkg ++ ["batteries", "agents"])).filter
              (fun n => !fileExistsB fs (root ++ [".claude", "agents"] ++ [n]))
      ∧ (scaffoldBatteries pkg root fs).2.specTemplates
          = (childNames fs (pkg ++ ["batteries", "spec-templates"])).filter
              (fun n => !fileExistsB fs
                (root ++ ["planning", "spec-templates"] ++ [n]))
      ∧ (scaffoldBatteries pkg root fs).2.skipped
          = (childNames fs (pkg ++ ["batteries", "templates"])).filter
              (fun n => fileExistsB fs
                (root ++ [".claude", "workflows", "templates"] ++ [n]))
            ++ (childNames fs (pkg ++ ["batteries", "agents"])).filter
              (fun n => fileExistsB fs (root ++ [".claude", "agents"] ++ [n]))
            ++ (childNames fs (pkg ++ ["batteries", "spec-templates"])).filter
              (fun n => fileExistsB fs
                (root ++ ["planning", "spec-templates"] ++ [n]))
      ∧ (∀ n ∈ childNames fs (pkg ++ ["batteries", "templates"]),
          fileExistsB (scaffoldBatteries pkg root fs).1
            (root ++ [".claude", "workflows", "templates"] ++ [n]) = true)
      ∧ (∀ n ∈ childNames fs (pkg ++ ["batteries", "agents"]),
          fileExistsB (scaffoldBatteries pkg root fs).1
            (root ++ [".claude", "agents"] ++ [n]) = true)
      ∧ (∀ n ∈ childNames fs (pkg ++ ["batteries", "spec-templates"]),
          fileExistsB (scaffoldBatteries pkg root fs).1
            (root ++ ["planning", "spec-templates"] ++ [n]) = true)
      ∧ ((scaffoldBatteries pkg root fs).1.map Prod.fst).Nodup := by
  obtain ⟨ne_d1s1, ne_d1s2, ne_d1s3, ne_d2s1, ne_d2s2, ne_d2s3, ne_d3s1,
    ne_d3s2, ne_d3s3, ne_d1d2, ne_d1d3, ne_d2d3⟩ := scaffold_dirs_ne root pkg
  obtain ⟨⟨app1, hfs1, happ1⟩, hcop1, hskip1, hex1, hnod1⟩ :=
    copyFiles_spec (pkg ++ ["batteries", "templates"])
      (root ++ [".claude", "workflows", "templates"]) fs
      (childNames fs (pkg ++ ["batteries", "templates"])) fs [] [] []
      (childNames_nodup fs _ hnd) (childNames_content fs _) (by simp)
      (by simp) hnd
  have hn2 : childNames (fs ++ app1) (pkg ++ ["batteries", "agents"])
      = childNames fs (pkg ++ ["batteries", "agents"]) := by
    have hnil : childNames app1 (pkg ++ ["batteries", "agents"]) = [] := by
      refine childNames_eq_nil app1 _ ?_
      intro e he n
      obtain ⟨m, hm, hp, -⟩ := happ1 e he
      rw [hp]
      intro hcontra
      exact ne_d1s2 (append_singleton_inj _ _ m n hcontra).1
    rw [childNames_append, hnil, List.append_nil]
  have hnod1' : ((fs ++ app1).map Prod.fst).Nodup := by
    rw [← hfs1]
    exact hnod1
  obtain ⟨⟨app2, hfs2, happ2⟩, hcop2, hskip2, hex2, hnod2⟩ :=
    copyFiles_spec (pkg ++ ["batteries", "agents"])
      (root ++ [".claude", "agents"]) fs
      (childNames fs (pkg ++ ["batteries", "agents"])) (fs ++ app1) [] [] app1
      (childNames_nodup fs _ hnd) (childNames_content fs _) rfl
      (by
        intro e he n hn
        obtain ⟨m, hm, hp, -⟩ := happ1 e he
        rw [hp]
        intro hcontra
        exact ne_d1d2 (append_singleton_inj _ _ m n hcontra).1)
      hnod1'
  have hn3 : childNames ((fs ++ app1) ++ app2)
        (pkg ++ ["batteries", "spec-templates"])
      = childNames fs (pkg ++ ["batteries", "spec-templates"]) := by
    have hnil1 : childNames app1 (pkg ++ ["batteries", "spec-templates"])
        = [] := by
      refine childNames_eq_nil app1 _ ?_
      intro e he n
      obtain ⟨m, hm, hp, -⟩ := happ1 e he
      rw [hp]
      intro hcontra
      exact ne_d1s3 (append_singleton_inj _ _ m n hcontra).1
    have hnil2 : childNames app2 (pkg ++ ["batteries", "spec-templates"])
        = [] := by
      refine childNames_eq_nil app2 _ ?_
      intro e he n
      obtain ⟨m, hm, hp, -⟩ := happ2 e he
      rw [hp]
      intro hcontra
      exact ne_d2s3 (append_singleton_inj _ _ m n hcontra).1
    rw [childNames_append, childNames_append, hnil1, hnil2]
    simp
  have hnod2' : (((fs ++ app1) ++ app2).map Prod.fst).Nodup := by
    rw [← hfs2]
    exact hnod2
  obtain ⟨⟨app3, hfs3, happ3⟩, hcop3, hskip3, hex3, hnod3⟩ :=
    copyFiles_spec (pkg ++ ["batteries", "spec-templates"])
      (root ++ ["planning", "spec-templates"]) fs
      (childNames fs (pkg ++ ["batteries", "spec-templates"]))
      ((fs ++ app1) ++ app2) [] [] (app1 ++ app2)
      (childNames_nodup fs _ hnd) (childNames_content fs _)
      (List.append_assoc fs app1 app2)
      (by
        intro e he n hn
        rcases List.mem_append.mp he with h | h
        · obtain ⟨m, hm, hp, -⟩ := happ1 e h
          rw [hp]
          intro hcontra
          exact ne_d1d3 (append_singleton_inj _ _ m n hcontra).1
        · obtain ⟨m, hm, hp, -⟩ := happ2 e h
          rw [hp]
          intro hcontra
          exact ne_d2d3 (append_singleton_inj _ _ m n hcontra).1)
      hnod2'
  have hc1fs : (copyDirectory (pkg ++ ["batteries", "templates"])
      (root ++ [".claude", "workflows", "templates"]) fs).1 = fs ++ app1 :=
    hfs1
  have hc1cop : (copyDirectory (pkg ++ ["batteries", "templates"])
      (root ++ [".claude", "workflows", "templates"]) fs).2.1
      = (childNames fs (pkg ++ ["batteries", "templates"])).filter
          (fun n => !fileExistsB fs
            (root ++ [".claude", "workflows", "templates"] ++ [n])) := by
    have h := hcop1
    rw [List.nil_append] at h
    exact h
  have hc1skip : (copyDirectory (pkg ++ ["batteries", "templates"])
      (root ++ [".claude", "workflows", "templates"]) fs).2.2
      = (childNames fs (pkg ++ ["batteries", "templates"])).filter
          (fun n => fileExistsB fs
            (root ++ [".claude", "workflows", "templates"] ++ [n])) := by
    have h := hskip1
    rw [List.nil_append] at h
    exact h
  have hc2 : copyDirectory (pkg ++ ["batteries", "agents"])
      (root ++ [".claude", "agents"])
      (copyDirectory (pkg ++ ["batteries", "templates"])
        (root ++ [".claude", "workflows", "templates"]) fs).1
      = copyFiles (pkg ++ ["batteries", "agents"])
          (root ++ [".claude", "agents"])
          (childNames fs (pkg ++ ["batteries", "agents"])) (fs ++ app1)
          [] [] := by
    rw [hc1fs]
    show copyFiles (pkg ++ ["batteries", "agents"])
        (root ++ [".claude", "agents"])
        (childNames (fs ++ app1) (pkg ++ ["batteries", "agents"]))
        (fs ++ app1) [] [] = _
    rw [hn2]
  have hc2fs : (copyDirectory (pkg ++ ["batteries", "agents"])
      (root ++ [".claude", "agents"])
      (copyDirectory (pkg ++ ["batteries", "templates"])
        (root ++ [".claude", "workflows", "templates"]) fs).1).1
      = (fs ++ app1) ++ app2 := by
    rw [hc2]
    exact hfs2
  have hc2cop : (copyDirectory (pkg ++ ["batteries", "agents"])
      (root ++ [".claude", "agents"])
      (copyDirectory (pkg ++ ["batteries", "templates"])
        (root ++ [".claude", "workflows", "templates"]) fs).1).2.1
      = (childNames fs (pkg ++ ["batteries", "agents"])).filter
          (fun n => !fileExistsB fs
            (root ++ [".claude", "agents"] ++ [n])) := by
    rw [hc2]
    have h := hcop2
    rw [List.nil_append] at h
    exact h
  have hc2skip : (copyDirectory (pkg ++ ["batteries", "agents"])
      (root ++ [".claude", "agents"])
      (copyDirectory (pkg ++ ["batteries", "templates"])
        (root ++ [".claude", "workflows", "templates"]) fs).1).2.2
      = (childNames fs (pkg ++ ["batteries", "agents"])).filter
          (fun n => fileExistsB fs
            (root ++ [".claude", "agents"] ++ [n])) := by
    rw [hc2]
    have h := hskip2
    rw [List.nil_append] at h
    exact h
  have hc3 : copyDirectory (pkg ++ ["batteries", "spec-templates"])
      (root ++ ["planning", "spec-templates"])
      (copyDirectory (pkg ++ ["batteries", "agents"])
        (root ++ [".claude", "agents"])
        (copyDirectory (pkg ++ ["batteries", "templates"])
          (root ++ [".claude", "workflows", "templates"]) fs).1).1
      = copyFiles (pkg ++ ["batteries", "spec-templates"])
          (root ++ ["planning", "spec-templates"])
          (childNames fs (pkg ++ ["batteries", "spec-templates"]))
          ((fs ++ app1) ++ app2) [] [] := by
    rw [hc2fs]
    show copyFiles (pkg ++ ["batteries", "spec-templates"])
        (root ++ ["planning", "spec-templates"])
        (childNames ((fs ++ app1) ++ app2)
          (pkg ++ ["batteries", "spec-templates"]))
        ((fs ++ app1) ++ app2) [] [] = _
    rw [hn3]
  have hc3fs : (copyDirectory (pkg ++ ["batteries", "spec-templates"])
      (root ++ ["planning", "spec-templates"])
      (copyDirectory (pkg ++ ["batteries", "agents"])
        (root ++ [".claude", "agents"])
        (copyDirectory (pkg ++ ["batteries", "templates"])
          (root ++ [".claude", "workflows", "templates"]) fs).1).1).1
      = (((fs ++ app1) ++ app2) ++ app3) := by
    rw [hc3]
    rw [hfs3]
  have hc3cop : (copyDirectory (pkg ++ ["batteries", "spec-templates"])
      (root ++ ["planning", "spec-templates"])
      (copyDirectory (pkg ++ ["batteries", "agents"])
        (root ++ [".claude", "agents"])
        (copyDirectory (pkg ++ ["batteries", "templates"])
          (root ++ [".claude", "workflows", "templates"]) fs).1).1).2.1
      = (childNames fs (pkg ++ ["batteries", "spec-templates"])).filter
          (fun n => !fileExistsB fs
            (root ++ ["planning", "spec-templates"] ++ [n])) := by
    rw [hc3]
    have h := hcop3
    rw [List.nil_append] at h
    exact h
  have hc3skip : (copyDirectory (pkg ++ ["batteries", "spec-templates"])
      (root ++ ["planning", "spec-templates"])
      (copyDirectory (pkg ++ ["batteries", "agents"])
        (root ++ [".claude", "agents"])
        (copyDirectory (pkg ++ ["batteries", "templates"])
          (root ++ [".claude", "workflows", "templates"]) fs).1).1).2.2
      = (childNames fs (pkg ++ ["batteries", "spec-templates"])).filter
          (fun n => fileExistsB fs
            (root ++ ["planning", "spec-templates"] ++ [n])) := by
    rw [hc3]
    have h := hskip3
    rw [List.nil_append] at h
    exact h
  refine ⟨app1, app2, app3, ?_, happ1, happ2, happ3, ?_, ?_, ?_, ?_,
    ?_, ?_, ?_, ?_⟩
  · show (copyDirectory (pkg ++ ["batteries", "spec-templates"])
        (root ++ ["planning", "spec-templates"])
        (copyDirectory (pkg ++ ["batteries", "agents"])
          (root ++ [".claude", "agents"])
          (copyDirectory (pkg ++ ["batteries", "templates"])
            (root ++ [".claude", "workflows", "templates"]) fs).1).1).1
      = ((fs ++ app1) ++ app2) ++ app3
    exact hc3fs
  · exact hc1cop
  · exact hc2cop
  · exact hc3cop
  · show (copyDirectory (pkg ++ ["batteries", "templates"])
          (root ++ [".claude", "workflows", "templates"]) fs).2.2
        ++ (copyDirectory (pkg ++ ["batteries", "agents"])
          (root ++ [".claude", "agents"])
          (copyDirectory (pkg ++ ["batteries", "templates"])
            (root ++ [".claude", "workflows", "templates"]) fs).1).2.2
        ++ (copyDirectory (pkg ++ ["batteries", "spec-templates"])
          (root ++ ["planning", "spec-templates"])
          (copyDirectory (pkg ++ ["batteries", "agents"])
            (root ++ [".claude", "agents"])
            (copyDirectory (pkg ++ ["batteries", "templates"])
              (root ++ [".claude", "workflows", "templates"]) fs).1).1).2.2
      = _
    rw [hc1skip, hc2skip, hc3skip]
  · intro n hn
    show fileExistsB (copyDirectory (pkg ++ ["batteries", "spec-templates"])
        (root ++ ["planning", "spec-templates"])
        (copyDirectory (pkg ++ ["batteries", "agents"])
          (root ++ [".claude", "agents"])
          (copyDirectory (pkg ++ ["batteries", "templates"])
            (root ++ [".claude", "workflows", "templates"]) fs).1).1).1
        (root ++ [".claude", "workflows", "templates"] ++ [n]) = true
    rw [hc3fs]
    refine fileExistsB_mono _ app3 _ ?_
    refine fileExistsB_mono _ app2 _ ?_
    rw [← hfs1]
    exact hex1 n hn
  · intro n hn
    show fileExistsB (copyDirectory (pkg ++ ["batteries", "spec-templates"])
        (root ++ ["planning", "spec-templates"])
        (copyDirectory (pkg ++ ["batteries", "agents"])
          (root ++ [".claude", "agents"])
          (copyDirectory (pkg ++ ["batteries", "templates"])
            (root ++ [".claude", "workflows", "templates"]) fs).1).1).1
        (root ++ [".claude", "agents"] ++ [n]) = true
    rw [hc3fs]
    refine fileExistsB_mono _ app3 _ ?_
    rw [← hfs2]
    exact hex2 n hn
  · intro n hn
    show fileExistsB (copyDirectory (pkg ++ ["batteries", "spec-templates"])
        (root ++ ["planning", "spec-templates"])
        (copyDirectory (pkg ++ ["batteries", "agents"])
          (root ++ [".claude", "agents"])
          (copyDirectory (pkg ++ ["batteries", "templates"])
            (root ++ [".claude", "workflows", "templates"]) fs).1).1).1
        (root ++ ["planning", "spec-templates"] ++ [n]) = true
    rw [hc3]
    exact hex3 n hn
  · show ((copyDirectory (pkg ++ ["batteries", "spec-templates"])
        (root ++ ["planning", "spec-templates"])
        (copyDirectory (pkg ++ ["batteries", "agents"])
          (root ++ [".claude", "agents"])
          (copyDirectory (pkg ++ ["batteries", "templates"])
            (root ++ [".claude", "workflows", "templates"]) fs).1).1).1.map
              Prod.fst).Nodup
    rw [hc3]
    exact hnod3

/-- C10: over a filesystem with distinct file paths, `scaffoldBatteries`
leaves every file that existed before the call byte-for-byte unchanged; it
records in `skipped` exactly the listed source names whose destination file
already existed; the copied-name lists are exactly the names present in the
package's three batteries source directories and absent from the
corresponding destination directory; and the operation is idempotent: a
second run changes no file and copies nothing. -/
theorem scaffoldBatteries_frame_spec (pkg root : List String) (fs : Fs)
    (hnd : (fs.map Prod.fst).Nodup) :
    (∀ q c, fileContent fs q = some c →
        fileContent (scaffoldBatteries pkg root fs).1 q = some c)
    ∧ (scaffoldBatteries pkg root fs).2.templates
        = (childNames fs (pkg ++ ["batteries", "templates"])).filter
            (fun n => !fileExistsB fs
              (root ++ [".claude", "workflows", "templates"] ++ [n]))
    ∧ (scaffoldBatteries pkg root fs).2.agents
        = (childNames fs (pkg ++ ["batteries", "agents"])).filter
            (fun n => !fileExistsB fs (root ++ [".claude", "agents"] ++ [n]))
    ∧ (scaffoldBatteries pkg root fs).2.specTemplates
        = (childNames fs (pkg ++ ["batteries", "spec-templates"])).filter
            (fun n => !fileExistsB fs
              (root ++ ["planning", "spec-templates"] ++ [n]))
    ∧ (scaffoldBatteries pkg root fs).2.skipped
        = (childNames fs (pkg ++ ["batteries", "templates"])).filter
            (fun n => fileExistsB fs
              (root ++ [".claude", "workflows", "templates"] ++ [n]))
          ++ (childNames fs (pkg ++ ["batteries", "agents"])).filter
            (fun n => fileExistsB fs (root ++ [".claude", "agents"] ++ [n]))
          ++ (childNames fs (pkg ++ ["batteries", "spec-templates"])).filter
            (fun n => fileExistsB fs
              (root ++ ["planning", "spec-templates"] ++ [n]))
    ∧ (scaffoldBatteries pkg root (scaffoldBatteries pkg root fs).1).1
        = (scaffoldBatteries pkg root fs).1
    ∧ (scaffoldBatteries pkg root (scaffoldBatteries pkg root fs).1).2.templates
        = []
    ∧ (scaffoldBatteries pkg root (scaffoldBatteries pkg root fs).1).2.agents
        = []
    ∧ (scaffoldBatteries pkg root
        (scaffoldBatteries pkg root fs).1).2.specTemplates = [] := by
  obtain ⟨ne_d1s1, ne_d1s2, ne_d1s3, ne_d2s1, ne_d2s2, ne_d2s3, ne_d3s1,
    ne_d3s2, ne_d3s3, -, -, -⟩ := scaffold_dirs_ne root pkg
  obtain ⟨app1, app2, app3, hfs, happ1, happ2, happ3, hcopT, hcopA, hcopS,
    hskip, hexT, hexA, hexS, hnodout⟩ := scaffoldBatteries_run pkg root fs hnd
  obtain ⟨A1, A2, A3, hfs2, hA1, hA2, hA3, hcopT2, hcopA2, hcopS2, hskip2,
    hexT2, hexA2, hexS2, hnodout2⟩ :=
    scaffoldBatteries_run pkg root (scaffoldBatteries pkg root fs).1 hnodout
  have hnil1 : ∀ (dir : List String),
      root ++ [".claude", "workflows", "templates"] ≠ dir →
      childNames app1 dir = [] := by
    intro dir hne
    refine childNames_eq_nil app1 dir ?_
    intro e he n
    obtain ⟨m, hm, hp, -⟩ := happ1 e he
    rw [hp]
    intro hcontra
    exact hne (append_singleton_inj _ _ m n hcontra).1
  have hnil2 : ∀ (dir : List String), root ++ [".claude", "agents"] ≠ dir →
      childNames app2 dir = [] := by
    intro dir hne
    refine childNames_eq_nil app2 dir ?_
    intro e he n
    obtain ⟨m, hm, hp, -⟩ := happ2 e he
    rw [hp]
    intro hcontra
    exact hne (append_singleton_inj _ _ m n hcontra).1
  have hnil3 : ∀ (dir : List String),
      root ++ ["planning", "spec-templates"] ≠ dir →
      childNames app3 dir = [] := by
    intro dir hne
    refine childNames_eq_nil app3 dir ?_
    intro e he n
    obtain ⟨m, hm, hp, -⟩ := happ3 e he
    rw [hp]
    intro hcontra
    exact hne (append_singleton_inj _ _ m n hcontra).1
  have hcn1 : childNames (scaffoldBatteries pkg root fs).1
        (pkg ++ ["batteries", "templates"])
      = childNames fs (pkg ++ ["batteries", "templates"]) := by
    rw [hfs, childNames_append, childNames_append, childNames_append,
      hnil1 _ ne_d1s1, hnil2 _ ne_d2s1, hnil3 _ ne_d3s1]
    simp
  have hcn2 : childNames (scaffoldBatteries pkg root fs).1
        (pkg ++ ["batteries", "agents"])
      = childNames fs (pkg ++ ["batteries", "agents"]) := by
    rw [hfs, childNames_append, childNames_append, childNames_append,
      hnil1 _ ne_d1s2, hnil2 _ ne_d2s2, hnil3 _ ne_d3s2]
    simp
  have hcn3 : childNames (scaffoldBatteries pkg root fs).1
        (pkg ++ ["batteries", "spec-templates"])
      = childNames fs (pkg ++ ["batteries", "spec-templates"]) := by
    rw [hfs, childNames_append, childNames_append, childNames_append,
      hnil1 _ ne_d1s3, hnil2 _ ne_d2s3, hnil3 _ ne_d3s3]
    simp
  refine ⟨?_, hcopT, hcopA, hcopS, hskip, ?_, ?_, ?_, ?_⟩
  · intro q c h
    rw [hfs]
    exact fileContent_append_left _ app3 q c
      (fileContent_append_left _ app2 q c
        (fileContent_append_left fs app1 q c h))
  · have hA1nil : A1 = [] := by
      rw [List.eq_nil_iff_forall_not_mem]
      intro e he
      obtain ⟨n, hn, hp, hex⟩ := hA1 e he
      rw [hcn1] at hn
      rw [hexT n hn] at hex
      exact absurd hex (by simp)
    have hA2nil : A2 = [] := by
      rw [List.eq_nil_iff_forall_not_mem]
      intro e he
      obtain ⟨n, hn, hp, hex⟩ := hA2 e he
      rw [hcn2] at hn
      rw [hexA n hn] at hex
      exact absurd hex (by simp)
    have hA3nil : A3 = [] := by
      rw [List.eq_nil_iff_forall_not_mem]
      intro e he
      obtain ⟨n, hn, hp, hex⟩ := hA3 e he
      rw [hcn3] at hn
      rw [hexS n hn] at hex
      exact absurd hex (by simp)
    rw [hfs2, hA1nil, hA2nil, hA3nil]
    simp
  · rw [hcopT2, hcn1]
    rw [List.filter_eq_nil_iff]
    intro n hn
    rw [hexT n hn]
    simp
  · rw [hcopA2, hcn2]
    rw [List.filter_eq_nil_iff]
    intro n hn
    rw [hexA n hn]
    simp
  · rw [hcopS2, hcn3]
    rw [List.filter_eq_nil_iff]
    intro n hn
    rw [hexS n hn]
    simp

/-- C9: the `batteries` command's effect on disk does not depend on the
`--update` flag: `scaffoldBatteries` declares no update parameter, so the
flag changes nothing; no pre-existing file is ever overwritten, so the
overwritten report is necessarily empty. -/
theorem batteries_update_noop_spec (update : Bool) (pkg root : List String)
    (fs : Fs) :
    batteriesCommand update pkg root fs = batteriesCommand false pkg root fs
    ∧ (∀ q c, fileContent fs q = some c →
        fileContent (batteriesCommand update pkg root fs).1 q = some c)
    ∧ (∀ q, fileExistsB fs q = true →
        fileContent (batteriesCommand update pkg root fs).1 q
          = fileContent fs q) := by
  have hstep : ∀ (src dest q : List String) (g : Fs) (c' : String),
      fileContent g q = some c' →
      fileContent (copyDirectory src dest g).1 q = some c' := by
    intro src dest q g c' hg
    obtain ⟨a, ha⟩ := copyFiles_fs_ext src dest (childNames g src) g [] []
    show fileContent (copyFiles src dest (childNames g src) g [] []).1 q
      = some c'
    rw [ha]
    exact fileContent_append_left g a q c' hg
  have hpres : ∀ q c, fileContent fs q = some c →
      fileContent (batteriesCommand update pkg root fs).1 q = some c := by
    intro q c h
    show fileContent (copyDirectory (pkg ++ ["batteries", "spec-templates"])
        (root ++ ["planning", "spec-templates"])
        (copyDirectory (pkg ++ ["batteries", "agents"])
          (root ++ [".claude", "agents"])
          (copyDirectory (pkg ++ ["batteries", "templates"])
            (root ++ [".claude", "workflows", "templates"]) fs).1).1).1 q
      = some c
    exact hstep _ _ q _ c (hstep _ _ q _ c (hstep _ _ q _ c h))
  refine ⟨rfl, hpres, ?_⟩
  intro q hq
  obtain ⟨c, hc⟩ := fileContent_isSome_of_exists fs q hq
  rw [hc]
  exact hpres q c hc

/-- Witness for `batteries_update_noop_spec`: on the sample filesystem, the
`--update` flag changes nothing and the pre-existing project template keeps
its content. -/
theorem batteries_update_noop_spec_witness :
    batteriesCommand true ["pkg"] ["proj"] sampleBatteriesFs
      = batteriesCommand false ["pkg"] ["proj"] sampleBatteriesFs
    ∧ fileContent
        (batteriesCommand true ["pkg"] ["proj"] sampleBatteriesFs).1
        ["proj", ".claude", "workflows", "templates", "plan.md"]
      = some "local plan" :=
  ⟨(batteries_update_noop_spec true ["pkg"] ["proj"] sampleBatteriesFs).1,
   (batteries_update_noop_spec true ["pkg"] ["proj"] sampleBatteriesFs).2.1
     ["proj", ".claude", "workflows", "templates", "plan.md"] "local plan"
     (by decide)⟩

/-- Witness for `scaffoldBatteries_frame_spec`: on the sample filesystem,
pre-existing files keep their content, the copied and skipped lists are the
advertised filters of the source listings, and a second run changes no file
and copies nothing. -/
theorem scaffoldBatteries_frame_spec_witness :
    fileContent (scaffoldBatteries ["pkg"] ["proj"] sampleBatteriesFs).1
        ["proj", ".claude", "workflows", "templates", "plan.md"]
      = some "local plan"
    ∧ (scaffoldBatteries ["pkg"] ["proj"] sampleBatteriesFs).2.templates
        = (childNames sampleBatteriesFs
            (["pkg"] ++ ["batteries", "templates"])).filter
            (fun n => !fileExistsB sampleBatteriesFs
              (["proj"] ++ [".claude", "workflows", "templates"] ++ [n]))
    ∧ (scaffoldBatteries ["pkg"] ["proj"] sampleBatteriesFs).2.skipped
        = (childNames sampleBatteriesFs
            (["pkg"] ++ ["batteries", "templates"])).filter
            (fun n => fileExistsB sampleBatteriesFs
              (["proj"] ++ [".claude", "workflows", "templates"] ++ [n]))
          ++ (childNames sampleBatteriesFs
            (["pkg"] ++ ["batteries", "agents"])).filter
            (fun n => fileExistsB sampleBatteriesFs
              (["proj"] ++ [".claude", "agents"] ++ [n]))
          ++ (childNames sampleBatteriesFs
            (["pkg"] ++ ["batteries", "spec-templates"])).filter
            (fun n => fileExistsB sampleBatteriesFs
              (["proj"] ++ ["planning", "spec-templates"] ++ [n]))
    ∧ (scaffoldBatteries ["pkg"] ["proj"]
          (scaffoldBatteries ["pkg"] ["proj"] sampleBatteriesFs).1).1
        = (scaffoldBatteries ["pkg"] ["proj"] sampleBatteriesFs).1
    ∧ (scaffoldBatteries ["pkg"] ["proj"]
          (scaffoldBatteries ["pkg"] ["proj"] sampleBatteriesFs).1).2.templates
        = [] := by
  have h := scaffoldBatteries_frame_spec ["pkg"] ["proj"] sampleBatteriesFs
    (by decide)
  exact ⟨h.1 ["proj", ".claude", "workflows", "templates", "plan.md"]
      "local plan" (by decide),
    h.2.1, h.2.2.2.2.1, h.2.2.2.2.2.1, h.2.2.2.2.2.2.1⟩

end KataWm
